import Mathlib

/-!
Verification of the OAB (Object to ArrayBuffer) serialization library
(`src/index.ts`): a shallow embedding of the `Reader` and `Writer` classes
and proofs about the varint codec, the UTF-8 text codec, the tagged value
protocol with key-dictionary compression, and the growable write buffer.

Modelling conventions (JavaScript semantics made explicit):
- A `Uint8Array` is a `List Nat` of byte values; reading `buffer[i]` past the
  end yields `undefined` in JS, which we model per use site (an `Option` where
  the code compares the raw read, the value `0` where the code masks it with
  `&`, since `undefined & m = 0` in JS).
- JS bitwise operators (`|`, `&`, `<<`, `>>`, `~`) coerce to 32-bit integers.
  We track the 32-bit pattern as a `Nat < 2^32` and reinterpret with
  `toInt32`; `>>> 0` is `toUint32`.
- JS numbers are IEEE-754 doubles.  The value codec dispatches on
  `Number.isInteger`, so we split the number type into: finite integral
  numbers (`int : Int`), finite non-integral doubles represented by their
  64-bit pattern (`float : Nat`), `nan`, and `infinity`.  `undefined` (the JS
  missing-value sentinel, outside the TS type `OABDATA`) is `undef`.
- Strings are lists of UTF-16 code units (`Nat < 2^16`).
-/

namespace OAB

/-- JS strings as lists of UTF-16 code units. -/
abbrev JsStr := List Nat

/-- JS `>>> 0`: cast a number to the unsigned 32-bit range. -/
def toUint32 (n : Int) : Nat := (n % (2 ^ 32 : Int)).toNat

/-- Reinterpret a 32-bit pattern as a signed 32-bit integer (the result type
of JS bitwise operators). -/
def toInt32 (p : Nat) : Int :=
  if p % 2 ^ 32 < 2 ^ 31 then ((p % 2 ^ 32 : Nat) : Int)
  else ((p % 2 ^ 32 : Nat) : Int) - 2 ^ 32

/-- JS `x << s` on an unsigned pattern: shift count is taken mod 32 and the
result is truncated to 32 bits. -/
def jsShlPat (x s : Nat) : Nat := (x <<< (s % 32)) % 2 ^ 32

/-- `buffer[i]` where the use site masks the result (`undefined & m = 0`). -/
def readAt (buf : List Nat) (i : Nat) : Nat := buf.getD i 0

/-- Shared `Reader`/`Writer` construction options: the key dictionary
(`lookup`) and the ASCII fast-path flag (`noUtf8`). -/
structure Cfg where
  lookup : List JsStr
  noUtf8 : Bool

/-- Decode-time errors of `Reader` (`src/index.ts` throws `Error` with
distinguishable messages; we give each site its own constructor). -/
inductive RErr where
  /-- "Out of bounds access!" -/
  | outOfBounds
  /-- "Invalid UTF-8 sequence." -/
  | invalidUtf8
  /-- "Unknown byte ... in decoding an object." -/
  | unknownByte
  /-- "Reader.getData's object key string looked up a value out of bounds!" -/
  | badKeyRef
  /-- "Unknown data header correspondance!" -/
  | unknownTag
  /-- JS `RangeError` from `new Array(negative)` / `String.fromCodePoint`. -/
  | rangeError
deriving DecidableEq, Repr

/-- Encode-time errors of `Writer.data`. -/
inductive WErr where
  /-- "Cannot store ${data}!" for NaN and Infinity. -/
  | unrepresentable
  /-- "Cannot store ${typeof data}, data: ${data}" for unsupported kinds. -/
  | unsupported
deriving DecidableEq, Repr

/-- The value type of the protocol (TS `OABDATA`, plus the JS-only values
`nan`, `infinity` and `undef` that the TS type excludes but a JS caller can
pass). -/
inductive OABDATA where
  | null
  | bool (b : Bool)
  /-- A finite JS number with zero fractional part. -/
  | int (n : Int)
  /-- A finite JS number with nonzero fractional part, as its IEEE-754
  binary64 bit pattern. -/
  | float (bits : Nat)
  | nan
  | infinity (neg : Bool)
  | str (s : JsStr)
  | arr (xs : List OABDATA)
  | obj (kvs : List (JsStr × OABDATA))
  | undef

/-! ## Reader -/

/-- `Reader.u8`: bounds-checked single byte read. -/
def Reader.u8 (buf : List Nat) (pos : Nat) : Except RErr (Nat × Nat) :=
  if pos ≥ buf.length then .error .outOfBounds
  else .ok (readAt buf pos, pos + 1)

/-- The do/while loop of `Reader.vu`, with `u8` inlined (the bounds check is
`u8`'s). `out` is the 32-bit pattern of the JS accumulator. -/
def Reader.vuLoop (buf : List Nat) (pos out shift : Nat) :
    Except RErr (Nat × Nat) :=
  if pos < buf.length then
    let b := readAt buf pos
    let out2 := out ||| jsShlPat (b &&& 127) shift
    if b &&& 128 ≠ 0 then Reader.vuLoop buf (pos + 1) out2 (shift + 7)
    else .ok (out2, pos + 1)
  else .error .outOfBounds
termination_by buf.length - pos
decreasing_by omega

/-- `Reader.vu`: unsigned varint decode. The JS `|=` accumulator makes the
result a signed 32-bit integer. -/
def Reader.vu (buf : List Nat) (pos : Nat) : Except RErr (Int × Nat) :=
  (Reader.vuLoop buf pos 0 0).map (fun pa => (toInt32 pa.1, pa.2))

/-- `Reader.vi`: zigzag decode, `(v & 1) ? ~(v >> 1) : (v >> 1)` (arithmetic
shift is floor division; `~x = -x-1`). -/
def Reader.vi (buf : List Nat) (pos : Nat) : Except RErr (Int × Nat) :=
  (Reader.vu buf pos).map
    (fun pa => (if pa.1 % 2 = 1 then -(Int.fdiv pa.1 2) - 1 else Int.fdiv pa.1 2, pa.2))

/-- JS `String.fromCodePoint` for an in-range code point: a surrogate pair
above `0xFFFF`, a single unit otherwise. -/
def fromCodePoint (cp : Nat) : List Nat :=
  if cp < 0x10000 then [cp]
  else [0xD800 + ((cp - 0x10000) >>> 10), 0xDC00 + ((cp - 0x10000) &&& 0x3FF)]

/-- The UTF-8 decoding loop of `Reader.string`.  Continuation bytes are read
without a bounds check, exactly as in the source (`this.buffer[this.at++]`,
masked, so an out-of-range read contributes `0`). -/
def Reader.strLoop (buf : List Nat) (pos endP : Nat) :
    Except RErr (List Nat × Nat) :=
  if _h : pos < endP then
    let byte := readAt buf pos
    if byte ≤ 0x7F then
      match Reader.strLoop buf (pos + 1) endP with
      | .error e => .error e
      | .ok (us, p) => .ok (byte :: us, p)
    else if byte &&& 0xE0 = 0xC0 then
      let u := ((byte &&& 0x1F) <<< 6) ||| (readAt buf (pos + 1) &&& 0x3F)
      match Reader.strLoop buf (pos + 2) endP with
      | .error e => .error e
      | .ok (us, p) => .ok (u :: us, p)
    else if byte &&& 0xF0 = 0xE0 then
      let u := ((byte &&& 0x0F) <<< 12) ||| ((readAt buf (pos + 1) &&& 0x3F) <<< 6) |||
        (readAt buf (pos + 2) &&& 0x3F)
      match Reader.strLoop buf (pos + 3) endP with
      | .error e => .error e
      | .ok (us, p) => .ok (u :: us, p)
    else if byte &&& 0xF8 = 0xF0 then
      let cp := ((byte &&& 0x07) <<< 18) ||| ((readAt buf (pos + 1) &&& 0x3F) <<< 12) |||
        ((readAt buf (pos + 2) &&& 0x3F) <<< 6) ||| (readAt buf (pos + 3) &&& 0x3F)
      if 0x10FFFF < cp then .error .rangeError
      else
        match Reader.strLoop buf (pos + 4) endP with
        | .error e => .error e
        | .ok (us, p) => .ok (fromCodePoint cp ++ us, p)
    else .error .invalidUtf8
  else .ok ([], pos)
termination_by endP - pos
decreasing_by all_goals omega

/-- The single-byte (`noUtf8`) reading loop of `Reader.string`:
`String.fromCharCode(this.buffer[this.at++])`, `n` times. -/
def Reader.rawLoop (buf : List Nat) (pos : Nat) : Nat → List Nat × Nat
  | 0 => ([], pos)
  | n + 1 =>
    let r := Reader.rawLoop buf (pos + 1) n
    (readAt buf pos :: r.1, r.2)

/-- `Reader.string`: varint byte length, bounds check, then the decode loop of
the active mode. -/
def Reader.string (cfg : Cfg) (buf : List Nat) (pos : Nat) :
    Except RErr (List Nat × Nat) :=
  if cfg.noUtf8 then
    match Reader.vu buf pos with
    | .error e => .error e
    | .ok (v, p1) =>
      if (p1 : Int) + v > (buf.length : Int) then .error .outOfBounds
      else .ok (Reader.rawLoop buf p1 v.toNat)
  else
    match Reader.vu buf pos with
    | .error e => .error e
    | .ok (v, p1) =>
      if (p1 : Int) + v > (buf.length : Int) then .error .outOfBounds
      else Reader.strLoop buf p1 ((p1 : Int) + v).toNat

/-- Little-endian read of `k` bytes starting at `pos`. -/
def readLE (buf : List Nat) (pos : Nat) : Nat → Nat
  | 0 => 0
  | k + 1 => readAt buf pos + 256 * readLE buf (pos + 1) k

/-- `Reader.float`: bounds check then `getFloat64(pos, true)`, modelled as the
64-bit pattern assembled from 8 little-endian bytes. -/
def Reader.float (buf : List Nat) (pos : Nat) : Except RErr (Nat × Nat) :=
  if pos + 8 > buf.length then .error .outOfBounds
  else .ok (readLE buf pos 8, pos + 8)

/-! IEEE-754 binary64 classification of a 64-bit pattern, used to map a
decoded pattern back to the number model (`Number.isInteger` etc.). -/

/-- Exponent field of a binary64 pattern. -/
def f64Exp (bits : Nat) : Nat := bits / 2 ^ 52 % 2 ^ 11

/-- Mantissa field of a binary64 pattern. -/
def f64Mant (bits : Nat) : Nat := bits % 2 ^ 52

/-- Sign bit of a binary64 pattern. -/
def f64Neg (bits : Nat) : Bool := bits / 2 ^ 63 % 2 = 1

/-- Magnitude of a finite binary64 pattern when its value is an integer,
`none` when the value has a fractional part.  (Only meaningful for
`f64Exp bits ≠ 2047`.) -/
def f64IntMag (bits : Nat) : Option Nat :=
  if f64Exp bits = 0 then (if f64Mant bits = 0 then some 0 else none)
  else if 1075 ≤ f64Exp bits then
    some ((2 ^ 52 + f64Mant bits) * 2 ^ (f64Exp bits - 1075))
  else if (2 ^ 52 + f64Mant bits) % 2 ^ (1075 - f64Exp bits) = 0 then
    some ((2 ^ 52 + f64Mant bits) / 2 ^ (1075 - f64Exp bits))
  else none

/-- The JS number denoted by a binary64 pattern, in the number model. -/
def bitsToNum (bits : Nat) : OABDATA :=
  if f64Exp bits = 2047 then
    (if f64Mant bits = 0 then .infinity (f64Neg bits) else .nan)
  else
    match f64IntMag bits with
    | some m => .int (if f64Neg bits then -(m : Int) else (m : Int))
    | none => .float bits

/-- `this.lookup[idx]` on the reader: JS array indexing, `undefined` when out
of range (including a negative int32 index). -/
def lookupAt (lookup : List JsStr) (i : Int) : Option JsStr :=
  if i < 0 then none else lookup[i.toNat]?

/-- The code units of `"__proto__"`.  On a plain object, assigning this key
finds the inherited `Object.prototype` accessor (as long as the prototype
chain still exposes it): the assignment mutates the prototype instead of
creating an own property. -/
def protoKey : JsStr := [95, 95, 112, 114, 111, 116, 111, 95, 95]

/-- The property names of `Object.prototype`, as UTF-16 code-unit lists.  A
plain `{}` inherits all of them, so reading one of these keys that was never
stored still does not yield `undefined`. -/
def objectProtoKeys : List JsStr :=
  [[99, 111, 110, 115, 116, 114, 117, 99, 116, 111, 114],
   [104, 97, 115, 79, 119, 110, 80, 114, 111, 112, 101, 114, 116, 121],
   [105, 115, 80, 114, 111, 116, 111, 116, 121, 112, 101, 79, 102],
   [112, 114, 111, 112, 101, 114, 116, 121, 73, 115, 69, 110, 117, 109, 101, 114, 97, 98, 108, 101],
   [116, 111, 76, 111, 99, 97, 108, 101, 83, 116, 114, 105, 110, 103],
   [116, 111, 83, 116, 114, 105, 110, 103],
   [118, 97, 108, 117, 101, 79, 102],
   [95, 95, 100, 101, 102, 105, 110, 101, 71, 101, 116, 116, 101, 114, 95, 95],
   [95, 95, 100, 101, 102, 105, 110, 101, 83, 101, 116, 116, 101, 114, 95, 95],
   [95, 95, 108, 111, 111, 107, 117, 112, 71, 101, 116, 116, 101, 114, 95, 95],
   [95, 95, 108, 111, 111, 107, 117, 112, 83, 101, 116, 116, 101, 114, 95, 95],
   [95, 95, 112, 114, 111, 116, 111, 95, 95]]

/-- `final[key] = value` on a JS object along the own-property path (taken
whenever the key is not `"__proto__"`, or the prototype chain no longer
exposes the `__proto__` accessor), modelled as an insertion-ordered
association list: an existing key keeps its position and gets the new value,
a new key is appended.  The `"__proto__"`-with-accessor path creates no own
entry and is handled at the call site in `Reader.dataObj`. -/
def objInsert (kvs : List (JsStr × OABDATA)) (k : JsStr) (v : OABDATA) :
    List (JsStr × OABDATA) :=
  if kvs.any (fun p => p.1 == k) then
    kvs.map (fun p => if p.1 == k then (k, v) else p)
  else kvs ++ [(k, v)]

mutual

/-- `Reader.data`.  The `fuel` argument only caps the recursion depth so the
definition is total; at fuel `0` the model returns `outOfBounds` because, when
entered with fuel `≥ buf.length + 1 - pos` (as `Reader.decode` does), fuel can
only run out with `pos > buf.length`, where the source's first action (`u8`)
throws "Out of bounds access!".

The middle result component is the effect the value has when assigned to a
key the prototype-chain accessor still handles (`final["__proto__"] = v`):
`some b` means the assignment replaces the prototype and the accessor remains
reachable through the new chain iff `b` (`null` severs the chain; an array's
chain runs through `Array.prototype` to `Object.prototype`; an object exposes
the accessor iff it still did when its own decode loop finished); `none`
means the assignment is a no-op (numbers, booleans and strings are
primitives, which the `__proto__` setter ignores). -/
def Reader.data (cfg : Cfg) (buf : List Nat) :
    Nat → Nat → Except RErr (OABDATA × Option Bool × Nat)
  | 0, _ => .error .outOfBounds
  | fuel + 1, pos =>
    match Reader.u8 buf pos with
    | .error e => .error e
    | .ok (header, p1) =>
      match header with
      | 1 => .ok (.bool true, none, p1)
      | 2 => .ok (.bool false, none, p1)
      | 3 => .ok (.null, some false, p1)
      | 4 =>
        match Reader.vu buf p1 with
        | .error e => .error e
        | .ok (v, p2) => .ok (.int v, none, p2)
      | 5 =>
        match Reader.vu buf p1 with
        | .error e => .error e
        | .ok (v, p2) => .ok (.int (-v), none, p2)
      | 6 =>
        match Reader.float buf p1 with
        | .error e => .error e
        | .ok (bits, p2) => .ok (bitsToNum bits, none, p2)
      | 7 =>
        match Reader.string cfg buf p1 with
        | .error e => .error e
        | .ok (s, p2) => .ok (.str s, none, p2)
      | 8 =>
        match Reader.vu buf p1 with
        | .error e => .error e
        | .ok (len, p2) =>
          if len < 0 then .error .rangeError
          else Reader.dataArr cfg buf fuel len.toNat p2 []
      | 9 =>
        match Reader.vu buf p1 with
        | .error e => .error e
        | .ok (len, p2) => Reader.dataObj cfg buf fuel len.toNat p2 [] true
      | _ => .error .unknownTag
termination_by fuel _ => (fuel, 0)

/-- The element loop of `Reader.data` case 8 (`arr[i] = this.data()`; numeric
indices always create own elements, and an array's prototype chain exposes
the `__proto__` accessor). -/
def Reader.dataArr (cfg : Cfg) (buf : List Nat) :
    Nat → Nat → Nat → List OABDATA → Except RErr (OABDATA × Option Bool × Nat)
  | _, 0, pos, acc => .ok (.arr acc, some true, pos)
  | fuel, n + 1, pos, acc =>
    match Reader.data cfg buf fuel pos with
    | .error e => .error e
    | .ok (x, _, p1) => Reader.dataArr cfg buf fuel n p1 (acc ++ [x])
termination_by fuel n _ _ => (fuel, n + 1)

/-- The entry loop of `Reader.data` case 9.  The key-tag byte is read with a
raw unchecked access `this.buffer[this.at++]` (hence the `Option` match:
`undefined` falls to the "Unknown byte" error branch, as neither `1` nor
`2`).  `active` tracks whether `final`'s prototype chain still exposes the
`Object.prototype.__proto__` accessor (it does for the fresh `{}`): while it
does, `final["__proto__"] = v` stores no own entry and instead applies `v`'s
prototype effect; once it does not (the chain was severed or the accessor
shadowed by an own entry), every assignment — `"__proto__"` included — takes
the own-property path, and the state is final because that path never touches
the prototype. -/
def Reader.dataObj (cfg : Cfg) (buf : List Nat) :
    Nat → Nat → Nat → List (JsStr × OABDATA) → Bool →
      Except RErr (OABDATA × Option Bool × Nat)
  | _, 0, pos, acc, active => .ok (.obj acc, some active, pos)
  | fuel, n + 1, pos, acc, active =>
    match buf[pos]? with
    | some 1 =>
      match Reader.string cfg buf (pos + 1) with
      | .error e => .error e
      | .ok (k, p2) =>
        match Reader.data cfg buf fuel p2 with
        | .error e => .error e
        | .ok (v, pe, p3) =>
          if k = protoKey ∧ active = true then
            Reader.dataObj cfg buf fuel n p3 acc (pe.getD active)
          else Reader.dataObj cfg buf fuel n p3 (objInsert acc k v) active
    | some 2 =>
      match Reader.vu buf (pos + 1) with
      | .error e => .error e
      | .ok (idx, p2) =>
        match lookupAt cfg.lookup idx with
        | none => .error .badKeyRef
        | some k =>
          match Reader.data cfg buf fuel p2 with
          | .error e => .error e
          | .ok (v, pe, p3) =>
            if k = protoKey ∧ active = true then
              Reader.dataObj cfg buf fuel n p3 acc (pe.getD active)
            else Reader.dataObj cfg buf fuel n p3 (objInsert acc k v) active
    | _ => .error .unknownByte
termination_by fuel n _ _ _ => (fuel, n + 1)

end

/-- Whole-buffer decode entry point: `Reader.data` with enough fuel for any
input (see the fuel remark on `Reader.data`), keeping the value and the final
position. -/
def Reader.decode (cfg : Cfg) (buf : List Nat) : Except RErr (OABDATA × Nat) :=
  (Reader.data cfg buf (buf.length + 1) 0).map (fun r => (r.1, r.2.2))

/-! ## Writer -/

/-- Writer state: the physical buffer (`length` = capacity, zero-filled by
`new Uint8Array`) and the write position `this.at`. -/
structure WState where
  buffer : List Nat
  pos : Nat

/-- Capacity invariant maintained by every write path (each is preceded by an
`ensureCapacity` reservation covering it). -/
def WF (w : WState) : Prop := w.pos ≤ w.buffer.length

instance (w : WState) : Decidable (WF w) := Nat.decLe _ _

/-- `Writer.out`: `this.buffer.slice(0, this.at)`. -/
def Writer.out (w : WState) : List Nat := w.buffer.take w.pos

/-- A fresh writer, `new Uint8Array(options?.initialCapacity || 1024)` (the
`||` makes `0` fall back to 1024). -/
def Writer.mk0 (initialCapacity : Nat) : WState :=
  ⟨List.replicate (if initialCapacity = 0 then 1024 else initialCapacity) 0, 0⟩

/-- `Writer.ensureCapacity`: grow to `max (2 * len) needed`; the new
`Uint8Array` is zero-filled and `set` copies the old content to the front. -/
def Writer.ensureCapacity (w : WState) (additional : Nat) : WState :=
  let needed := w.pos + additional
  if needed > w.buffer.length then
    ⟨w.buffer ++ List.replicate (max (2 * w.buffer.length) needed - w.buffer.length) 0, w.pos⟩
  else w

/-- `this.buffer[this.at++] = b`: a `Uint8Array` store keeps the low 8 bits
and is silently dropped when the index is out of range (JS semantics); the
position advances regardless. -/
def Writer.storeByte (w : WState) (b : Nat) : WState :=
  ⟨if w.pos < w.buffer.length then w.buffer.set w.pos (b % 256) else w.buffer, w.pos + 1⟩

/-- Sequential stores of a byte list (used to state what the write loops do). -/
def Writer.storeList (w : WState) (bs : List Nat) : WState :=
  bs.foldl Writer.storeByte w

/-- `Writer.u8`. -/
def Writer.u8 (w : WState) (num : Nat) : WState :=
  Writer.storeByte (Writer.ensureCapacity w 1) num

/-- The do/while loop of `Writer.vu` (entered with `num` already cast to the
unsigned 32-bit range). -/
def Writer.vuLoop (w : WState) (num : Nat) : WState :=
  let part := num &&& 0x7F
  if num >>> 7 = 0 then Writer.storeByte w part
  else Writer.vuLoop (Writer.storeByte w (part ||| 0x80)) (num >>> 7)
termination_by num
decreasing_by
  simp only [Nat.shiftRight_eq_div_pow] at *
  omega

/-- `Writer.vu`: `num >>>= 0`, reserve 5 bytes, then the 7-bit group loop. -/
def Writer.vu (w : WState) (num : Int) : WState :=
  Writer.vuLoop (Writer.ensureCapacity w 5) (toUint32 num)

/-- JS `num << 1` on a number: int32 conversion, doubling, int32 wrap. -/
def jsShl1 (n : Int) : Int := toInt32 (toUint32 n * 2 % 2 ^ 32)

/-- `Writer.vi`: `this.vu(num < 0 ? ~(num << 1) : (num << 1))` with
`~x = -x - 1`. -/
def Writer.vi (w : WState) (num : Int) : WState :=
  Writer.vu w (if num < 0 then -(jsShl1 num) - 1 else jsShl1 num)

/-- Little-endian byte decomposition (`k` bytes). -/
def leBytes : Nat → Nat → List Nat
  | 0, _ => []
  | k + 1, n => n % 256 :: leBytes k (n / 256)

/-- `Writer.float`: reserve 8 bytes, then `setFloat64(pos, num, true)`,
modelled as storing the 8 little-endian bytes of the IEEE-754 pattern. -/
def Writer.float (w : WState) (bits : Nat) : WState :=
  Writer.storeList (Writer.ensureCapacity w 8) (leBytes 8 bits)

/-- The byte-length counting loop of `Writer.string` (UTF-8 mode): any code
unit in the surrogate range counts 4 bytes and skips the next unit. -/
def utf8Len : List Nat → Nat
  | [] => 0
  | c :: rest =>
    if c ≤ 0x7F then 1 + utf8Len rest
    else if c ≤ 0x7FF then 2 + utf8Len rest
    else if 0xD800 ≤ c ∧ c ≤ 0xDFFF then 4 + utf8Len rest.tail
    else 3 + utf8Len rest
termination_by s => s.length
decreasing_by
  all_goals simp [List.length_tail]
  all_goals omega

/-- The writing loop of `Writer.string` (UTF-8 mode).  In the surrogate
branch the low unit is `str.charCodeAt(++i)`: past the end it is NaN, and
`NaN & 0x3FF = 0`, which `rest.headD 0` reproduces. -/
def Writer.utf8WriteLoop (w : WState) : List Nat → WState
  | [] => w
  | c :: rest =>
    if c ≤ 0x7F then Writer.utf8WriteLoop (Writer.storeByte w c) rest
    else if c ≤ 0x7FF then
      Writer.utf8WriteLoop
        (Writer.storeByte (Writer.storeByte w (0xC0 ||| (c >>> 6))) (0x80 ||| (c &&& 0x3F))) rest
    else if 0xD800 ≤ c ∧ c ≤ 0xDFFF then
      let low := rest.headD 0
      let cp := 0x10000 + ((c &&& 0x3FF) <<< 10) + (low &&& 0x3FF)
      Writer.utf8WriteLoop
        (Writer.storeByte (Writer.storeByte (Writer.storeByte (Writer.storeByte w
          (0xF0 ||| (cp >>> 18))) (0x80 ||| ((cp >>> 12) &&& 0x3F)))
          (0x80 ||| ((cp >>> 6) &&& 0x3F))) (0x80 ||| (cp &&& 0x3F))) rest.tail
    else
      Writer.utf8WriteLoop
        (Writer.storeByte (Writer.storeByte (Writer.storeByte w
          (0xE0 ||| (c >>> 12))) (0x80 ||| ((c >>> 6) &&& 0x3F)))
          (0x80 ||| (c &&& 0x3F))) rest
termination_by s => s.length
decreasing_by
  all_goals simp [List.length_tail]
  all_goals omega

/-- `Writer.string`: in `noUtf8` mode one byte per unit, low 8 bits only
(`str.charCodeAt(i) & 0xFF`); otherwise count the UTF-8 byte length, write it
as a varint, reserve, and run the write loop. -/
def Writer.string (cfg : Cfg) (w : WState) (s : JsStr) : WState :=
  if cfg.noUtf8 then
    let w1 := Writer.vu w (s.length : Int)
    let w2 := Writer.ensureCapacity w1 s.length
    s.foldl (fun wa c => Writer.storeByte wa (c &&& 0xFF)) w2
  else
    let bl := utf8Len s
    let w1 := Writer.vu w (bl : Int)
    let w2 := Writer.ensureCapacity w1 bl
    Writer.utf8WriteLoop w2 s

/-- The writer's inverse dictionary (`this.lookup[options.lookup[i]] = i` for
ascending `i`, so a later duplicate overwrites an earlier one): the last
index whose entry equals `k`, offset by the start index `i`. -/
def invLookupFrom : List JsStr → Nat → JsStr → Option Nat
  | [], _, _ => none
  | s :: rest, i, k =>
    match invLookupFrom rest (i + 1) k with
    | some j => some j
    | none => if k = s then some i else none

/-- The own properties of `this.lookup` on the writer, as a lookup: the
constructor's `this.lookup[s] = i` for `s = "__proto__"` invokes the
inherited accessor with a number, which it ignores, so that assignment
creates no own entry. -/
def invLookup (dict : List JsStr) (k : JsStr) : Option Nat :=
  if k = protoKey then none else invLookupFrom dict 0 k

mutual

/-- `Writer.data`.  The result pairs the writer state at the point the call
returns or throws with the raised error, if any (so theorems can speak about
output already written when an encode fails). -/
def Writer.data (cfg : Cfg) (w : WState) : OABDATA → WState × Option WErr
  | .bool true => (Writer.u8 w 1, none)
  | .bool false => (Writer.u8 w 2, none)
  | .null => (Writer.u8 w 3, none)
  | .int n =>
    if 0 ≤ n then (Writer.vu (Writer.u8 w 4) n, none)
    else (Writer.vu (Writer.u8 w 5) (-n), none)
  | .float bits => (Writer.float (Writer.u8 w 6) bits, none)
  | .nan => (w, some .unrepresentable)
  | .infinity _ => (w, some .unrepresentable)
  | .str s => (Writer.string cfg (Writer.u8 w 7) s, none)
  | .arr xs => Writer.dataList cfg (Writer.vu (Writer.u8 w 8) (xs.length : Int)) xs
  | .obj kvs => Writer.dataObj cfg (Writer.vu (Writer.u8 w 9) (kvs.length : Int)) kvs
  | .undef => (w, some .unsupported)

/-- The element loop of `Writer.data` for arrays. -/
def Writer.dataList (cfg : Cfg) (w : WState) : List OABDATA → WState × Option WErr
  | [] => (w, none)
  | x :: rest =>
    match Writer.data cfg w x with
    | (w1, none) => Writer.dataList cfg w1 rest
    | (w1, some e) => (w1, some e)

/-- The entry loop of `Writer.data` for maps.  `this.lookup[key]` is a read
through the prototype chain of the plain `{}` dictionary: an own entry gives
tag 2 + the varint of its index; a key named like an `Object.prototype`
member still does not read back `undefined` — the inherited member (a
function, or the prototype object for `"__proto__"`) takes the tag-2 branch,
and `Writer.vu`'s `>>> 0` casts that non-numeric value to `0`; only a key
with neither gives tag 1 + the length-prefixed string.  The value follows
either way. -/
def Writer.dataObj (cfg : Cfg) (w : WState) :
    List (JsStr × OABDATA) → WState × Option WErr
  | [] => (w, none)
  | (k, v) :: rest =>
    let w1 :=
      match invLookup cfg.lookup k with
      | some i => Writer.vu (Writer.u8 w 2) (i : Int)
      | none =>
        if objectProtoKeys.contains k then
          Writer.vu (Writer.u8 w 2) 0
        else Writer.string cfg (Writer.u8 w 1) k
    match Writer.data cfg w1 v with
    | (w2, none) => Writer.dataObj cfg w2 rest
    | (w2, some e) => (w2, some e)

end

/-! ## Pure byte-level descriptions of the writer's output (proof helpers) -/

/-- The bytes emitted by the `Writer.vu` loop, with a structural fuel: fuel
`f` allows `f + 1` bytes, so `vuBytesF 4` covers every input `< 2 ^ 35`, in
particular the loop's whole domain after the unsigned 32-bit cast. -/
def vuBytesF : Nat → Nat → List Nat
  | 0, num => [num &&& 0x7F]
  | f + 1, num =>
    if num >>> 7 = 0 then [num &&& 0x7F]
    else ((num &&& 0x7F) ||| 0x80) :: vuBytesF f (num >>> 7)

/-- The bytes `Writer.vu` emits for an already-cast value. -/
def vuBytes (num : Nat) : List Nat := vuBytesF 4 num

/-- The bytes emitted by the UTF-8 write loop of `Writer.string`. -/
def utf8Bytes : List Nat → List Nat
  | [] => []
  | c :: rest =>
    if c ≤ 0x7F then c :: utf8Bytes rest
    else if c ≤ 0x7FF then
      (0xC0 ||| (c >>> 6)) :: (0x80 ||| (c &&& 0x3F)) :: utf8Bytes rest
    else if 0xD800 ≤ c ∧ c ≤ 0xDFFF then
      (0xF0 ||| ((0x10000 + ((c &&& 0x3FF) <<< 10) + (rest.headD 0 &&& 0x3FF)) >>> 18)) ::
      (0x80 ||| (((0x10000 + ((c &&& 0x3FF) <<< 10) + (rest.headD 0 &&& 0x3FF)) >>> 12) &&& 0x3F)) ::
      (0x80 ||| (((0x10000 + ((c &&& 0x3FF) <<< 10) + (rest.headD 0 &&& 0x3FF)) >>> 6) &&& 0x3F)) ::
      (0x80 ||| ((0x10000 + ((c &&& 0x3FF) <<< 10) + (rest.headD 0 &&& 0x3FF)) &&& 0x3F)) ::
      utf8Bytes rest.tail
    else
      (0xE0 ||| (c >>> 12)) :: (0x80 ||| ((c >>> 6) &&& 0x3F)) :: (0x80 ||| (c &&& 0x3F)) ::
      utf8Bytes rest
termination_by s => s.length
decreasing_by
  all_goals simp [List.length_tail]
  all_goals omega

/-- The bytes `Writer.string` emits: varint byte length, then the payload of
the active mode. -/
def strBytes (cfg : Cfg) (s : JsStr) : List Nat :=
  if cfg.noUtf8 then vuBytes (toUint32 (s.length : Int)) ++ s.map (fun c => c &&& 0xFF)
  else vuBytes (toUint32 (utf8Len s : Int)) ++ utf8Bytes s

mutual

/-- The bytes `Writer.data` emits for a value it accepts (meaningless for
`nan` / `infinity` / `undef`, which throw before writing). -/
def encBytes (cfg : Cfg) : OABDATA → List Nat
  | .null => [3]
  | .bool true => [1]
  | .bool false => [2]
  | .int n =>
    if 0 ≤ n then 4 :: vuBytes (toUint32 n) else 5 :: vuBytes (toUint32 (-n))
  | .float bits => 6 :: leBytes 8 bits
  | .nan => []
  | .infinity _ => []
  | .undef => []
  | .str s => 7 :: strBytes cfg s
  | .arr xs => 8 :: (vuBytes (toUint32 (xs.length : Int)) ++ encList cfg xs)
  | .obj kvs => 9 :: (vuBytes (toUint32 (kvs.length : Int)) ++ encObj cfg kvs)

/-- Concatenated encodings of array elements. -/
def encList (cfg : Cfg) : List OABDATA → List Nat
  | [] => []
  | x :: r => encBytes cfg x ++ encList cfg r

/-- Concatenated encodings of map entries (key tag + key payload + value),
mirroring the three key branches of `Writer.dataObj`. -/
def encObj (cfg : Cfg) : List (JsStr × OABDATA) → List Nat
  | [] => []
  | (k, v) :: r =>
    (match invLookup cfg.lookup k with
     | some i => 2 :: vuBytes (toUint32 (i : Int))
     | none =>
       if objectProtoKeys.contains k then 2 :: vuBytes (toUint32 0)
       else 1 :: strBytes cfg k) ++ encBytes cfg v ++ encObj cfg r

end

/-! ## Representable values -/

/-- Well-formed UTF-16 unit sequence: units below `2^16`, surrogates only in
high-low pairs. -/
def wfUnits : List Nat → Bool
  | [] => true
  | c :: rest =>
    if c < 0xD800 ∨ 0xE000 ≤ c then decide (c < 0x10000) && wfUnits rest
    else if c < 0xDC00 then
      match rest with
      | [] => false
      | l :: rest2 => decide (0xDC00 ≤ l) && decide (l < 0xE000) && wfUnits rest2
    else false

/-- A string that survives the round trip in the given text mode. -/
def strOKb (noUtf8 : Bool) (s : JsStr) : Bool :=
  if noUtf8 then decide (s.length < 2 ^ 31) && s.all (fun u => u ≤ 0xFF)
  else wfUnits s && decide (utf8Len s < 2 ^ 31)

/-- Pairwise-distinct key lists (JS object keys are necessarily distinct). -/
def nodupKeys : List JsStr → Bool
  | [] => true
  | k :: r => !(r.contains k) && nodupKeys r

mutual

/-- Representable values under the given text mode: the domain on which the
round trip is exact.  Integers are limited to 31-bit magnitude (the varint
codec reinterprets bit 31 as a sign on decode), floats are finite
non-integral doubles, strings/lengths are bounded by `2^31`, map keys are
distinct strings. -/
def reprOK (noUtf8 : Bool) : OABDATA → Bool
  | .null => true
  | .bool _ => true
  | .int n => decide (-2 ^ 31 < n) && decide (n < 2 ^ 31)
  | .float bits =>
    decide (bits < 2 ^ 64) && decide (f64Exp bits ≠ 2047) && (f64IntMag bits).isNone
  | .nan => false
  | .infinity _ => false
  | .undef => false
  | .str s => strOKb noUtf8 s
  | .arr xs => decide (xs.length < 2 ^ 31) && reprListOK noUtf8 xs
  | .obj kvs =>
    decide (kvs.length < 2 ^ 31) && nodupKeys (kvs.map Prod.fst) && reprObjOK noUtf8 kvs

/-- `reprOK` for every array element. -/
def reprListOK (noUtf8 : Bool) : List OABDATA → Bool
  | [] => true
  | x :: r => reprOK noUtf8 x && reprListOK noUtf8 r

/-- For every entry: `strOKb` for the key, the key not named like an
`Object.prototype` member (such a key would be looked up through the
prototype chain on encode and would hit the `__proto__` accessor on decode),
and `reprOK` for the value. -/
def reprObjOK (noUtf8 : Bool) : List (JsStr × OABDATA) → Bool
  | [] => true
  | (k, v) :: r =>
    strOKb noUtf8 k && !(objectProtoKeys.contains k) &&
      reprOK noUtf8 v && reprObjOK noUtf8 r

end

/-! ## Arithmetic and list helper lemmas -/

theorem two_pow_mul_lor {k b : Nat} (a : Nat) (hb : b < 2 ^ k) :
    2 ^ k * a ||| b = 2 ^ k * a + b :=
  (Nat.mul_add_lt_is_or hb a).symm

theorem lor_of_lt {a b k : Nat} (ha : a % 2 ^ k = 0) (hb : b < 2 ^ k) :
    a ||| b = a + b := by
  obtain ⟨q, rfl⟩ := Nat.dvd_of_mod_eq_zero ha
  exact two_pow_mul_lor q hb

theorem toUint32_lt (n : Int) : toUint32 n < 2 ^ 32 := by
  unfold toUint32
  omega

theorem toUint32_natCast (m : Nat) : toUint32 (m : Int) = m % 2 ^ 32 := by
  unfold toUint32
  omega

theorem toUint32_natCast_of_lt {m : Nat} (h : m < 2 ^ 32) : toUint32 (m : Int) = m := by
  rw [toUint32_natCast]
  omega

theorem toInt32_of_lt {p : Nat} (h : p < 2 ^ 31) : toInt32 p = (p : Int) := by
  unfold toInt32
  omega

theorem toInt32_eq {p : Nat} (h : p < 2 ^ 32) :
    toInt32 p = if p < 2 ^ 31 then (p : Int) else (p : Int) - 2 ^ 32 := by
  unfold toInt32
  split <;> split <;> omega

theorem readAt_append (pre : List Nat) (x : Nat) (r : List Nat) :
    readAt (pre ++ x :: r) pre.length = x := by
  induction pre with
  | nil => rfl
  | cons a t ih => simpa [readAt] using ih

theorem readAt_append_add (pre l : List Nat) (i : Nat) :
    readAt (pre ++ l) (pre.length + i) = readAt l i := by
  induction pre with
  | nil => simp [readAt]
  | cons a t ih =>
    simpa [readAt, List.length_cons, Nat.succ_add] using ih

theorem take_append_left {n : Nat} (l₁ l₂ : List Nat) (h : n ≤ l₁.length) :
    (l₁ ++ l₂).take n = l₁.take n := by
  induction l₁ generalizing n with
  | nil => simp_all
  | cons a t ih =>
    cases n with
    | zero => simp
    | succ m => simp_all

theorem take_set (buf : List Nat) (n v : Nat) :
    (buf.set n v).take n = buf.take n := by
  induction buf generalizing n with
  | nil => simp
  | cons a t ih =>
    cases n with
    | zero => simp
    | succ m => simp [ih]

/-! ## Writer operation specifications -/

/-- `w2` is `w` with the bytes `bs` appended to its output (and the capacity
invariant maintained). -/
def Emits (w w2 : WState) (bs : List Nat) : Prop :=
  WF w2 ∧ Writer.out w2 = Writer.out w ++ bs ∧ w2.pos = w.pos + bs.length

theorem out_length {w : WState} (h : WF w) : (Writer.out w).length = w.pos := by
  simp [Writer.out]
  exact h

theorem Emits.trans {w1 w2 w3 : WState} {bs cs : List Nat}
    (h1 : Emits w1 w2 bs) (h2 : Emits w2 w3 cs) : Emits w1 w3 (bs ++ cs) := by
  obtain ⟨a1, b1, c1⟩ := h1
  obtain ⟨a2, b2, c2⟩ := h2
  refine ⟨a2, ?_, ?_⟩
  · rw [b2, b1, List.append_assoc]
  · rw [c2, c1]; simp; omega

theorem ensure_pos (w : WState) (k : Nat) :
    (Writer.ensureCapacity w k).pos = w.pos := by
  simp only [Writer.ensureCapacity]
  split <;> rfl

theorem ensure_cap (w : WState) (k : Nat) :
    w.pos + k ≤ (Writer.ensureCapacity w k).buffer.length := by
  simp only [Writer.ensureCapacity]
  split
  · simp
    omega
  · omega

theorem ensure_emits {w : WState} (k : Nat) (h : WF w) :
    Emits w (Writer.ensureCapacity w k) [] := by
  refine ⟨?_, ?_, by simp [ensure_pos]⟩
  · have h1 := ensure_cap w k
    have h2 := ensure_pos w k
    unfold WF
    omega
  · simp only [Writer.ensureCapacity, Writer.out]
    split
    · rw [List.append_nil]
      exact take_append_left _ _ h
    · simp

theorem storeByte_emits {w : WState} (b : Nat) (h : w.pos < w.buffer.length) :
    Emits w (Writer.storeByte w b) [b % 256] := by
  unfold Emits Writer.storeByte Writer.out WF
  simp only [h, if_pos]
  refine ⟨by simp; omega, ?_, by simp⟩
  rw [List.take_succ, take_set]
  simp [List.getElem?_set_self (by simpa using h)]

theorem storeByte_len {w : WState} (b : Nat) :
    (Writer.storeByte w b).buffer.length = w.buffer.length := by
  unfold Writer.storeByte
  split <;> simp

theorem storeList_emits : ∀ (bs : List Nat) {w : WState}, WF w →
    w.pos + bs.length ≤ w.buffer.length →
    Emits w (Writer.storeList w bs) (bs.map (fun b => b % 256)) ∧
      (Writer.storeList w bs).buffer.length = w.buffer.length := by
  intro bs
  induction bs with
  | nil => intro w h _; exact ⟨⟨h, by simp [Writer.storeList], by simp [Writer.storeList]⟩, rfl⟩
  | cons b t ih =>
    intro w h hcap
    have hlt : w.pos < w.buffer.length := by simp at hcap; omega
    have h1 := storeByte_emits b hlt
    have hlen := storeByte_len (w := w) b
    have h2 := ih (w := Writer.storeByte w b) h1.1
      (by rw [hlen, h1.2.2]; simp at hcap ⊢; omega)
    refine ⟨?_, by simpa [Writer.storeList, hlen] using h2.2⟩
    have := h1.trans h2.1
    simpa [Writer.storeList] using this

theorem storeList_emits_lt {l : List Nat} {w : WState} (h : WF w)
    (hcap : w.pos + l.length ≤ w.buffer.length) (hlt : ∀ b ∈ l, b < 256) :
    Emits w (Writer.storeList w l) l ∧
      (Writer.storeList w l).buffer.length = w.buffer.length := by
  have hres := storeList_emits l h hcap
  have hid : l.map (fun b => b % 256) = l := by
    conv_rhs => rw [← List.map_id l]
    exact List.map_congr_left (fun b hb => Nat.mod_eq_of_lt (hlt b hb))
  rwa [hid] at hres

theorem u8_emits {w : WState} (num : Nat) (h : WF w) :
    Emits w (Writer.u8 w num) [num % 256] := by
  unfold Writer.u8
  have h1 := ensure_emits (w := w) 1 h
  have h2 := storeByte_emits (w := Writer.ensureCapacity w 1) num
    (by have := ensure_cap w 1; have := ensure_pos w 1; omega)
  simpa using h1.trans h2

theorem u8_emits_lt {w : WState} {n : Nat} (h : WF w) (hn : n < 256) :
    Emits w (Writer.u8 w n) [n] := by
  have := u8_emits n h
  rwa [Nat.mod_eq_of_lt hn] at this

theorem vuBytesF_length : ∀ f num, 1 ≤ (vuBytesF f num).length ∧ (vuBytesF f num).length ≤ f + 1 := by
  intro f
  induction f with
  | zero => intro num; simp [vuBytesF]
  | succ f ih =>
    intro num
    unfold vuBytesF
    split
    · simp
    · have := ih (num >>> 7)
      simp
      omega

theorem vuBytesF_lt : ∀ f num, ∀ b ∈ vuBytesF f num, b < 256 := by
  intro f
  induction f with
  | zero =>
    intro num b hb
    simp [vuBytesF] at hb
    subst hb
    have := Nat.and_le_right (n := num) (m := 0x7F)
    omega
  | succ f ih =>
    intro num b hb
    unfold vuBytesF at hb
    split at hb
    · simp at hb
      subst hb
      have := Nat.and_le_right (n := num) (m := 0x7F)
      omega
    · simp at hb
      rcases hb with hb | hb
      · subst hb
        exact Nat.or_lt_two_pow (n := 8) (Nat.and_lt_two_pow num (by norm_num)) (by norm_num)
      · exact ih _ b hb

theorem vuLoop_eq_storeList : ∀ (f num : Nat) (w : WState), num < 2 ^ (7 * (f + 1)) →
    Writer.vuLoop w num = Writer.storeList w (vuBytesF f num) := by
  intro f
  induction f with
  | zero =>
    intro num w h
    have h7 : num >>> 7 = 0 := by
      rw [Nat.shiftRight_eq_div_pow]
      norm_num at h ⊢
      omega
    unfold Writer.vuLoop vuBytesF
    simp [h7, Writer.storeList]
  | succ f ih =>
    intro num w h
    unfold Writer.vuLoop vuBytesF
    by_cases h7 : num >>> 7 = 0
    · simp [h7, Writer.storeList]
    · simp only [h7, if_neg, if_false]
      have hb : num >>> 7 < 2 ^ (7 * (f + 1)) := by
        have he : 7 * (f + 1 + 1) = 7 * (f + 1) + 7 := by ring
        rw [he, pow_add] at h
        rw [Nat.shiftRight_eq_div_pow]
        exact Nat.div_lt_of_lt_mul (by rw [Nat.mul_comm] at h; exact h)
      rw [ih _ _ hb]
      simp [Writer.storeList]

theorem vu_emits {w : WState} (num : Int) (h : WF w) :
    Emits w (Writer.vu w num) (vuBytes (toUint32 num)) := by
  unfold Writer.vu vuBytes
  have hu := toUint32_lt num
  rw [vuLoop_eq_storeList 4 _ _ (by norm_num at hu ⊢; omega)]
  have he := ensure_emits (w := w) 5 h
  have hcap := ensure_cap w 5
  have hpos := ensure_pos w 5
  have hlen := vuBytesF_length 4 (toUint32 num)
  have hstore := storeList_emits_lt (w := Writer.ensureCapacity w 5) he.1
    (by omega) (vuBytesF_lt 4 (toUint32 num))
  simpa using he.trans hstore.1

theorem leBytes_length : ∀ k n, (leBytes k n).length = k := by
  intro k
  induction k with
  | zero => intro n; rfl
  | succ k ih => intro n; simp [leBytes, ih]

theorem leBytes_lt : ∀ k n, ∀ b ∈ leBytes k n, b < 256 := by
  intro k
  induction k with
  | zero => intro n b hb; simp [leBytes] at hb
  | succ k ih =>
    intro n b hb
    simp [leBytes] at hb
    rcases hb with hb | hb
    · omega
    · exact ih _ b hb

theorem float_emits {w : WState} (bits : Nat) (h : WF w) :
    Emits w (Writer.float w bits) (leBytes 8 bits) := by
  unfold Writer.float
  have he := ensure_emits (w := w) 8 h
  have hcap := ensure_cap w 8
  have hpos := ensure_pos w 8
  have hstore := storeList_emits_lt (w := Writer.ensureCapacity w 8) he.1
    (by rw [leBytes_length]; omega) (leBytes_lt 8 bits)
  simpa using he.trans hstore.1

theorem utf8Bytes_length (s : List Nat) : (utf8Bytes s).length = utf8Len s := by
  induction s using utf8Len.induct with
  | case1 => simp [utf8Bytes, utf8Len]
  | case2 c rest h1 ih => rw [utf8Bytes, utf8Len]; simp [h1, ih]; omega
  | case3 c rest h1 h2 ih => rw [utf8Bytes, utf8Len]; simp [h1, h2, ih]; omega
  | case4 c rest h1 h2 h3 ih => rw [utf8Bytes, utf8Len]; simp [h1, h2, h3, ih]; omega
  | case5 c rest h1 h2 h3 ih => rw [utf8Bytes, utf8Len]; simp [h1, h2, h3, ih]; omega

/-- All code units below `2 ^ 16` (every actual JS string satisfies this,
`charCodeAt` being a UTF-16 unit). -/
def unitsOK (s : JsStr) : Prop := ∀ u ∈ s, u < 0x10000

theorem utf8Bytes_lt (s : List Nat) (hu : unitsOK s) : ∀ b ∈ utf8Bytes s, b < 256 := by
  induction s using utf8Len.induct with
  | case1 => simp [utf8Bytes]
  | case2 c rest h1 ih =>
    rw [utf8Bytes]
    simp only [h1, if_pos]
    intro b hb
    simp at hb
    rcases hb with rfl | hb
    · omega
    · exact ih (fun u hm => hu u (by simp [hm])) b hb
  | case3 c rest h1 h2 ih =>
    rw [utf8Bytes]
    simp only [h1, h2, if_neg, if_pos, if_true, if_false]
    intro b hb
    have hb1 : 0xC0 ||| (c >>> 6) < 256 :=
      Nat.or_lt_two_pow (n := 8) (by norm_num)
        (by rw [Nat.shiftRight_eq_div_pow]; omega)
    have hb2 : 0x80 ||| (c &&& 0x3F) < 256 :=
      Nat.or_lt_two_pow (n := 8) (by norm_num)
        (lt_of_le_of_lt Nat.and_le_right (by norm_num))
    simp at hb
    rcases hb with rfl | rfl | hb
    · exact hb1
    · exact hb2
    · exact ih (fun u hm => hu u (by simp [hm])) b hb
  | case4 c rest h1 h2 h3 ih =>
    rw [utf8Bytes]
    simp only [h1, h2, h3, if_neg, if_pos, if_true, if_false, and_self]
    intro b hb
    have h_hi : c &&& 0x3FF < 2 ^ 10 := Nat.and_lt_two_pow c (by norm_num)
    have h_lo : rest.head?.getD 0 &&& 0x3FF < 2 ^ 10 := Nat.and_lt_two_pow _ (by norm_num)
    have hcpb : 0x10000 + ((c &&& 0x3FF) <<< 10) + (rest.head?.getD 0 &&& 0x3FF) < 2097152 := by
      rw [Nat.shiftLeft_eq]
      omega
    have hb1 : 0xF0 ||| ((0x10000 + ((c &&& 0x3FF) <<< 10) + (rest.head?.getD 0 &&& 0x3FF)) >>> 18) < 256 :=
      Nat.or_lt_two_pow (n := 8) (by norm_num)
        (by rw [Nat.shiftRight_eq_div_pow]; omega)
    simp at hb
    rcases hb with rfl | rfl | rfl | rfl | hb
    · exact hb1
    · exact Nat.or_lt_two_pow (n := 8) (by norm_num)
        (lt_of_le_of_lt Nat.and_le_right (by norm_num))
    · exact Nat.or_lt_two_pow (n := 8) (by norm_num)
        (lt_of_le_of_lt Nat.and_le_right (by norm_num))
    · exact Nat.or_lt_two_pow (n := 8) (by norm_num)
        (lt_of_le_of_lt Nat.and_le_right (by norm_num))
    · refine ih (fun u hm => hu u ?_) b hb
      rcases rest with _ | ⟨x, t⟩
      · simp at hm
      · simp at hm ⊢
        tauto
  | case5 c rest h1 h2 h3 ih =>
    rw [utf8Bytes]
    simp only [h1, h2, h3, if_neg, if_pos, if_true, if_false]
    intro b hb
    have hc : c < 0x10000 := hu c (by simp)
    have hb1 : 0xE0 ||| (c >>> 12) < 256 :=
      Nat.or_lt_two_pow (n := 8) (by norm_num)
        (by rw [Nat.shiftRight_eq_div_pow]; omega)
    simp at hb
    rcases hb with rfl | rfl | rfl | hb
    · exact hb1
    · exact Nat.or_lt_two_pow (n := 8) (by norm_num)
        (lt_of_le_of_lt Nat.and_le_right (by norm_num))
    · exact Nat.or_lt_two_pow (n := 8) (by norm_num)
        (lt_of_le_of_lt Nat.and_le_right (by norm_num))
    · exact ih (fun u hm => hu u (by simp [hm])) b hb

theorem utf8WriteLoop_eq_storeList (s : List Nat) : ∀ w : WState,
    Writer.utf8WriteLoop w s = Writer.storeList w (utf8Bytes s) := by
  induction s using utf8Len.induct with
  | case1 => intro w; simp [Writer.utf8WriteLoop, utf8Bytes, Writer.storeList]
  | case2 c rest h1 ih =>
    intro w
    rw [Writer.utf8WriteLoop, utf8Bytes]
    simp only [h1, if_pos]
    rw [ih]
    simp [Writer.storeList]
  | case3 c rest h1 h2 ih =>
    intro w
    rw [Writer.utf8WriteLoop, utf8Bytes]
    simp only [h1, h2, if_neg, if_pos, if_true, if_false]
    rw [ih]
    simp [Writer.storeList]
  | case4 c rest h1 h2 h3 ih =>
    intro w
    rw [Writer.utf8WriteLoop, utf8Bytes]
    simp only [h1, h2, h3, if_neg, if_pos, if_true, if_false, and_self]
    rw [ih]
    simp [Writer.storeList]
  | case5 c rest h1 h2 h3 ih =>
    intro w
    rw [Writer.utf8WriteLoop, utf8Bytes]
    simp only [h1, h2, h3, if_neg, if_pos, if_true, if_false]
    rw [ih]
    simp [Writer.storeList]

theorem foldl_store_mask : ∀ (s : List Nat) (w : WState),
    s.foldl (fun wa c => Writer.storeByte wa (c &&& 0xFF)) w =
      Writer.storeList w (s.map (fun c => c &&& 0xFF)) := by
  intro s
  induction s with
  | nil => intro w; rfl
  | cons c t ih =>
    intro w
    unfold Writer.storeList at ih ⊢
    simp only [List.map_cons, List.foldl_cons]
    exact ih _

theorem string_emits {c : Cfg} {w : WState} {s : JsStr} (h : WF w) (hu : unitsOK s) :
    Emits w (Writer.string c w s) (strBytes c s) := by
  unfold Writer.string strBytes
  by_cases hn : c.noUtf8
  · rw [if_pos hn, if_pos hn]
    have h1 := vu_emits (w := w) (s.length : Int) h
    have h2 := ensure_emits (w := Writer.vu w (s.length : Int)) s.length h1.1
    have hcap := ensure_cap (Writer.vu w (s.length : Int)) s.length
    have hpos := ensure_pos (Writer.vu w (s.length : Int)) s.length
    rw [foldl_store_mask]
    have h3 := storeList_emits_lt
      (l := s.map (fun c => c &&& 0xFF))
      (w := Writer.ensureCapacity (Writer.vu w (s.length : Int)) s.length) h2.1
      (by rw [List.length_map]; omega)
      (fun b hb => by
        rw [List.mem_map] at hb
        obtain ⟨c, _, rfl⟩ := hb
        exact lt_of_le_of_lt Nat.and_le_right (by norm_num))
    simpa using (h1.trans h2).trans h3.1
  · have hn2 : ¬(c.noUtf8 = true) := by simp [hn]
    rw [if_neg hn2, if_neg hn2]
    have h1 := vu_emits (w := w) (utf8Len s : Int) h
    have h2 := ensure_emits (w := Writer.vu w (utf8Len s : Int)) (utf8Len s) h1.1
    have hcap := ensure_cap (Writer.vu w (utf8Len s : Int)) (utf8Len s)
    have hpos := ensure_pos (Writer.vu w (utf8Len s : Int)) (utf8Len s)
    rw [utf8WriteLoop_eq_storeList]
    have h3 := storeList_emits_lt
      (w := Writer.ensureCapacity (Writer.vu w (utf8Len s : Int)) (utf8Len s)) h2.1
      (by rw [utf8Bytes_length]; omega)
      (utf8Bytes_lt s hu)
    simpa using (h1.trans h2).trans h3.1

theorem wfUnits_mem_lt : ∀ (s : List Nat), wfUnits s = true → ∀ u ∈ s, u < 0x10000 := by
  intro s
  induction s using wfUnits.induct with
  | case1 => intro _ u hu; simp at hu
  | case2 c rest h ih =>
    intro hwf u hu
    rw [wfUnits.eq_def] at hwf
    simp only [if_pos h, Bool.and_eq_true, decide_eq_true_eq] at hwf
    simp at hu
    rcases hu with rfl | hu
    · exact hwf.1
    · exact ih hwf.2 u hu
  | case3 c h1 h2 =>
    intro hwf
    rw [wfUnits.eq_def] at hwf
    simp only [if_neg h1, if_pos h2] at hwf
    simp at hwf
  | case4 c h1 h2 l rest2 ih =>
    intro hwf u hu
    rw [wfUnits.eq_def] at hwf
    simp only [if_neg h1, if_pos h2, Bool.and_eq_true, decide_eq_true_eq] at hwf
    simp at hu
    rcases hu with rfl | rfl | hu
    · omega
    · omega
    · exact ih hwf.2 u hu
  | case5 c rest h1 h2 =>
    intro hwf
    rw [wfUnits.eq_def] at hwf
    simp only [if_neg h1, if_neg h2] at hwf
    simp at hwf

theorem strOKb_unitsOK {nu : Bool} {s : JsStr} (h : strOKb nu s = true) : unitsOK s := by
  unfold strOKb at h
  cases nu with
  | true =>
    simp at h
    intro u hu
    have := h.2 u hu
    omega
  | false =>
    simp at h
    exact wfUnits_mem_lt s h.1

/-- `Writer.data` accepts `v` at `w` and appends exactly `encBytes`. -/
def EncOK (cfg : Cfg) (w : WState) (v : OABDATA) : Prop :=
  (Writer.data cfg w v).2 = none ∧ Emits w (Writer.data cfg w v).1 (encBytes cfg v)

theorem dataList_emits (cfg : Cfg) (xs : List OABDATA)
    (hx : ∀ x ∈ xs, ∀ w : WState, WF w → reprOK cfg.noUtf8 x = true → EncOK cfg w x) :
    ∀ w : WState, WF w → reprListOK cfg.noUtf8 xs = true →
      (Writer.dataList cfg w xs).2 = none ∧
        Emits w (Writer.dataList cfg w xs).1 (encList cfg xs) := by
  induction xs with
  | nil =>
    intro w hw _
    rw [Writer.dataList, encList]
    exact ⟨rfl, hw, by simp, by simp⟩
  | cons x t ih =>
    intro w hw hr
    rw [reprListOK] at hr
    simp only [Bool.and_eq_true] at hr
    have hex := hx x (by simp) w hw hr.1
    obtain ⟨hnone, hemit⟩ := hex
    have hsplit : Writer.data cfg w x = ((Writer.data cfg w x).1, none) := by
      rw [← hnone]
    have ht := ih (fun y hy => hx y (by simp [hy])) (Writer.data cfg w x).1 hemit.1 hr.2
    rw [Writer.dataList, encList, hsplit]
    exact ⟨ht.1, by simpa using hemit.trans ht.2⟩

theorem dataObj_emits (cfg : Cfg) (kvs : List (JsStr × OABDATA))
    (hx : ∀ p ∈ kvs, ∀ w : WState, WF w → reprOK cfg.noUtf8 p.2 = true → EncOK cfg w p.2) :
    ∀ w : WState, WF w → reprObjOK cfg.noUtf8 kvs = true →
      (Writer.dataObj cfg w kvs).2 = none ∧
        Emits w (Writer.dataObj cfg w kvs).1 (encObj cfg kvs) := by
  induction kvs with
  | nil =>
    intro w hw _
    rw [Writer.dataObj, encObj]
    exact ⟨rfl, hw, by simp, by simp⟩
  | cons p t ih =>
    obtain ⟨k, v⟩ := p
    intro w hw hr
    rw [reprObjOK] at hr
    simp only [Bool.and_eq_true, Bool.not_eq_true'] at hr
    rw [Writer.dataObj, encObj]
    cases hk : invLookup cfg.lookup k with
    | none =>
      have h1 := u8_emits_lt (w := w) (n := 1) hw (by norm_num)
      have h2 := string_emits (c := cfg) (w := Writer.u8 w 1) h1.1
        (strOKb_unitsOK hr.1.1.1)
      have hw1 := h1.trans h2
      have hev := hx (k, v) (by simp) _ hw1.1 hr.1.2
      obtain ⟨hnone, hemit⟩ := hev
      have hsplit : Writer.data cfg (Writer.string cfg (Writer.u8 w 1) k) v =
          ((Writer.data cfg (Writer.string cfg (Writer.u8 w 1) k) v).1, none) := by
        rw [← hnone]
      simp only [hk, hr.1.1.2, Bool.false_eq_true, if_false]
      rw [hsplit]
      have ht := ih (fun q hq => hx q (by simp [hq])) _ hemit.1 hr.2
      refine ⟨ht.1, ?_⟩
      have := (hw1.trans hemit).trans ht.2
      simpa using this
    | some i =>
      have h1 := u8_emits_lt (w := w) (n := 2) hw (by norm_num)
      have h2 := vu_emits (w := Writer.u8 w 2) (i : Int) h1.1
      have hw1 := h1.trans h2
      have hev := hx (k, v) (by simp) _ hw1.1 hr.1.2
      obtain ⟨hnone, hemit⟩ := hev
      have hsplit : Writer.data cfg (Writer.vu (Writer.u8 w 2) (i : Int)) v =
          ((Writer.data cfg (Writer.vu (Writer.u8 w 2) (i : Int)) v).1, none) := by
        rw [← hnone]
      simp only [hk]
      rw [hsplit]
      have ht := ih (fun q hq => hx q (by simp [hq])) _ hemit.1 hr.2
      refine ⟨ht.1, ?_⟩
      have := (hw1.trans hemit).trans ht.2
      simpa using this

theorem data_emits_n (n : Nat) : ∀ v : OABDATA, sizeOf v ≤ n → ∀ (cfg : Cfg) (w : WState),
    WF w → reprOK cfg.noUtf8 v = true → EncOK cfg w v := by
  induction n with
  | zero =>
    intro v hv
    exfalso
    cases v <;> simp at hv
  | succ n ih =>
    intro v hv cfg w hw hr
    cases v with
    | null =>
      refine ⟨rfl, ?_⟩
      rw [Writer.data, encBytes]
      exact u8_emits_lt hw (by norm_num)
    | bool b =>
      cases b with
      | true =>
        refine ⟨rfl, ?_⟩
        rw [Writer.data, encBytes]
        exact u8_emits_lt hw (by norm_num)
      | false =>
        refine ⟨rfl, ?_⟩
        rw [Writer.data, encBytes]
        exact u8_emits_lt hw (by norm_num)
    | int m =>
      rw [EncOK, Writer.data, encBytes]
      by_cases hm : 0 ≤ m
      · rw [if_pos hm, if_pos hm]
        have h1 := u8_emits_lt (w := w) (n := 4) hw (by norm_num)
        have h2 := vu_emits (w := Writer.u8 w 4) m h1.1
        exact ⟨rfl, by simpa using h1.trans h2⟩
      · rw [if_neg hm, if_neg hm]
        have h1 := u8_emits_lt (w := w) (n := 5) hw (by norm_num)
        have h2 := vu_emits (w := Writer.u8 w 5) (-m) h1.1
        exact ⟨rfl, by simpa using h1.trans h2⟩
    | float bits =>
      refine ⟨rfl, ?_⟩
      rw [Writer.data, encBytes]
      have h1 := u8_emits_lt (w := w) (n := 6) hw (by norm_num)
      have h2 := float_emits (w := Writer.u8 w 6) bits h1.1
      simpa using h1.trans h2
    | nan => rw [reprOK] at hr; simp at hr
    | infinity b => rw [reprOK] at hr; simp at hr
    | undef => rw [reprOK] at hr; simp at hr
    | str s =>
      refine ⟨rfl, ?_⟩
      rw [Writer.data, encBytes]
      have h1 := u8_emits_lt (w := w) (n := 7) hw (by norm_num)
      have h2 := string_emits (c := cfg) (w := Writer.u8 w 7) h1.1
        (strOKb_unitsOK (by rw [reprOK] at hr; exact hr))
      simpa using h1.trans h2
    | arr xs =>
      rw [reprOK] at hr
      simp only [Bool.and_eq_true] at hr
      have hx : ∀ x ∈ xs, ∀ w : WState, WF w → reprOK cfg.noUtf8 x = true → EncOK cfg w x := by
        intro x hmem
        have hs : sizeOf x < sizeOf (OABDATA.arr xs) := by
          have := List.sizeOf_lt_of_mem hmem
          simp
          omega
        exact ih x (by omega) cfg
      have h1 := u8_emits_lt (w := w) (n := 8) hw (by norm_num)
      have h2 := vu_emits (w := Writer.u8 w 8) (xs.length : Int) h1.1
      have hw1 := h1.trans h2
      have hl := dataList_emits cfg xs hx _ hw1.1 hr.2
      rw [EncOK, Writer.data, encBytes]
      exact ⟨hl.1, by simpa using hw1.trans hl.2⟩
    | obj kvs =>
      rw [reprOK] at hr
      simp only [Bool.and_eq_true] at hr
      have hx : ∀ p ∈ kvs, ∀ w : WState, WF w → reprOK cfg.noUtf8 p.2 = true → EncOK cfg w p.2 := by
        intro p hmem
        have hs : sizeOf p.2 < sizeOf (OABDATA.obj kvs) := by
          have h1 := List.sizeOf_lt_of_mem hmem
          obtain ⟨a, b⟩ := p
          simp at h1 ⊢
          omega
        exact ih p.2 (by omega) cfg
      have h1 := u8_emits_lt (w := w) (n := 9) hw (by norm_num)
      have h2 := vu_emits (w := Writer.u8 w 9) (kvs.length : Int) h1.1
      have hw1 := h1.trans h2
      have hl := dataObj_emits cfg kvs hx _ hw1.1 hr.2
      rw [EncOK, Writer.data, encBytes]
      exact ⟨hl.1, by simpa using hw1.trans hl.2⟩

theorem data_emits {c : Cfg} {w : WState} {v : OABDATA} (hw : WF w)
    (hr : reprOK c.noUtf8 v = true) : EncOK c w v :=
  data_emits_n (sizeOf v) v le_rfl c w hw hr

/-! ## Reader lemmas: reading back what the writer emitted -/

theorem and127_eq_mod (x : Nat) : x &&& 127 = x % 128 := by
  have h := Nat.and_pow_two_sub_one_eq_mod x 7
  norm_num at h
  exact h

theorem and128_of_lt {x : Nat} (h : x < 128) : x &&& 128 = 0 := by
  have h2 := Nat.and_two_pow x 7
  rw [Nat.testBit_lt_two_pow (by norm_num; omega)] at h2
  norm_num at h2
  exact h2

theorem add128_and128 : ∀ m, m < 128 → (128 + m) &&& 128 ≠ 0 := by decide

theorem add128_and127 : ∀ m, m < 128 → (128 + m) &&& 127 = m := by decide

theorem jsShlPat_eq {x shift : Nat} (hsh : shift ≤ 31) (hx : x * 2 ^ shift < 2 ^ 32) :
    jsShlPat x shift = x * 2 ^ shift := by
  unfold jsShlPat
  rw [Nat.shiftLeft_eq, Nat.mod_eq_of_lt (show shift < 32 by omega), Nat.mod_eq_of_lt hx]

/-- A single final (continuation-free) varint byte read. -/
theorem vuLoopR_last (pre rest : List Nat) (out shift num : Nat)
    (hsh : shift ≤ 31) (hnum : num < 2 ^ (32 - shift)) (hout : out < 2 ^ shift)
    (h7 : num < 128) :
    Reader.vuLoop (pre ++ num :: rest) pre.length out shift =
      .ok (out + num * 2 ^ shift, pre.length + 1) := by
  have hlt : pre.length < (pre ++ num :: rest).length := by simp
  have hmul : num * 2 ^ shift < 2 ^ 32 := by
    calc num * 2 ^ shift < 2 ^ (32 - shift) * 2 ^ shift :=
          (Nat.mul_lt_mul_right (Nat.two_pow_pos shift)).mpr hnum
      _ = 2 ^ 32 := by rw [← pow_add]; congr 1; omega
  have hb127 : num &&& 127 = num := by rw [and127_eq_mod]; exact Nat.mod_eq_of_lt h7
  have hor : out ||| num * 2 ^ shift = out + num * 2 ^ shift := by
    rw [Nat.lor_comm, Nat.mul_comm, two_pow_mul_lor num hout]
    ring
  rw [Reader.vuLoop, if_pos hlt]
  simp only [readAt_append, hb127, and128_of_lt h7, jsShlPat_eq hsh hmul, hor,
    ne_eq, not_true_eq_false, ite_false, if_false]

theorem vuLoopR_read : ∀ (f num : Nat), num < 2 ^ (7 * (f + 1)) →
    ∀ (pre rest : List Nat) (out shift : Nat),
    shift ≤ 31 → num < 2 ^ (32 - shift) → out < 2 ^ shift →
    Reader.vuLoop (pre ++ vuBytesF f num ++ rest) pre.length out shift =
      .ok (out + num * 2 ^ shift, pre.length + (vuBytesF f num).length) := by
  intro f
  induction f with
  | zero =>
    intro num _ pre rest out shift hsh hnum hout
    have h7 : num < 128 := by norm_num at *; omega
    rw [vuBytesF]
    rw [and127_eq_mod, Nat.mod_eq_of_lt h7]
    simpa using vuLoopR_last pre rest out shift num hsh hnum hout h7
  | succ f ih =>
    intro num hnf pre rest out shift hsh hnum hout
    rw [vuBytesF]
    by_cases h7 : num >>> 7 = 0
    · have hlt : num < 128 := by
        rw [Nat.shiftRight_eq_div_pow] at h7
        norm_num at h7
        omega
      rw [if_pos h7, and127_eq_mod, Nat.mod_eq_of_lt hlt]
      simpa using vuLoopR_last pre rest out shift num hsh hnum hout hlt
    · rw [if_neg h7]
      have hge : 128 ≤ num := by
        rw [Nat.shiftRight_eq_div_pow] at h7
        norm_num at h7
        omega
      have hshlt : shift < 25 := by
        by_contra hc
        have hle : 2 ^ (32 - shift) ≤ 2 ^ 7 :=
          Nat.pow_le_pow_right (by norm_num) (by omega)
        norm_num at hle
        omega
      have hb : (num &&& 127) ||| 128 = 128 + num % 128 := by
        rw [and127_eq_mod, Nat.lor_comm]
        have := two_pow_mul_lor (k := 7) 1 (b := num % 128) (by norm_num; omega)
        norm_num at this
        exact this
      have hmlt : num % 128 < 128 := Nat.mod_lt _ (by norm_num)
      have hmul : num % 128 * 2 ^ shift < 2 ^ 32 := by
        calc num % 128 * 2 ^ shift ≤ num * 2 ^ shift :=
              Nat.mul_le_mul_right _ (Nat.mod_le _ _)
          _ < 2 ^ (32 - shift) * 2 ^ shift :=
              (Nat.mul_lt_mul_right (Nat.two_pow_pos shift)).mpr hnum
          _ = 2 ^ 32 := by rw [← pow_add]; congr 1; omega
      have hlt : pre.length < (pre ++ (((num &&& 127) ||| 128) :: vuBytesF f (num >>> 7)) ++ rest).length := by
        simp
      have hc127 : ((num &&& 127) ||| 128) &&& 127 = num % 128 := by
        rw [hb]; exact add128_and127 _ hmlt
      have hc128 : ((num &&& 127) ||| 128) &&& 128 ≠ 0 := by
        rw [hb]; exact add128_and128 _ hmlt
      have hor : out ||| num % 128 * 2 ^ shift = out + num % 128 * 2 ^ shift := by
        rw [Nat.lor_comm, Nat.mul_comm, two_pow_mul_lor (num % 128) hout]
        ring
      rw [Reader.vuLoop, if_pos hlt]
      simp only [List.append_assoc, List.cons_append, readAt_append, hc127,
        jsShlPat_eq hsh hmul, hor]
      rw [if_pos hc128]
      have hih := ih (num >>> 7)
        (by
          rw [Nat.shiftRight_eq_div_pow]
          have he : 7 * (f + 1 + 1) = 7 * (f + 1) + 7 := by ring
          rw [he, pow_add] at hnf
          exact Nat.div_lt_of_lt_mul (by rw [Nat.mul_comm] at hnf; exact hnf))
        (pre ++ [(num &&& 127) ||| 128]) rest
        (out + num % 128 * 2 ^ shift) (shift + 7)
        (by omega)
        (by
          rw [Nat.shiftRight_eq_div_pow]
          have he : (32 : Nat) - (shift + 7) = 32 - shift - 7 := by omega
          rw [he]
          have h2 : 2 ^ (32 - shift) = 2 ^ (32 - shift - 7) * 2 ^ 7 := by
            rw [← pow_add]; congr 1; omega
          rw [h2] at hnum
          exact Nat.div_lt_of_lt_mul (by rw [Nat.mul_comm] at hnum; norm_num at hnum ⊢; exact hnum))
        (by
          have : num % 128 * 2 ^ shift < 128 * 2 ^ shift :=
            (Nat.mul_lt_mul_right (Nat.two_pow_pos shift)).mpr hmlt
          have h2 : 2 ^ (shift + 7) = 2 ^ shift * 128 := by
            rw [pow_add]; norm_num
          rw [h2]
          have h3 : (2 : Nat) ^ shift ≥ 1 := Nat.one_le_two_pow
          nlinarith [Nat.two_pow_pos shift])
      simp only [List.append_assoc, List.singleton_append, List.cons_append, List.nil_append,
        List.length_append, List.length_cons, List.length_nil,
        Nat.zero_add, Nat.add_zero] at hih
      rw [hih]
      have harith : out + num % 128 * 2 ^ shift + num >>> 7 * 2 ^ (shift + 7) =
          out + num * 2 ^ shift := by
        rw [Nat.shiftRight_eq_div_pow]
        norm_num
        have hqr := Nat.div_add_mod num 128
        have h2 : (2 : Nat) ^ (shift + 7) = 2 ^ shift * 128 := by
          rw [pow_add]; norm_num
        rw [h2]
        nlinarith [hqr]
      rw [harith]
      simp only [List.length_cons]
      congr 2
      omega

theorem vu_read {m : Nat} (hm : m < 2 ^ 32) (pre rest : List Nat) :
    Reader.vu (pre ++ vuBytes m ++ rest) pre.length =
      .ok (toInt32 m, pre.length + (vuBytes m).length) := by
  unfold Reader.vu vuBytes
  rw [vuLoopR_read 4 m (by norm_num; omega) pre rest 0 0 (by norm_num)
    (by norm_num; omega) (by norm_num)]
  simp [Except.map]

theorem readLE_read : ∀ (k n : Nat), n < 2 ^ (8 * k) → ∀ (pre rest : List Nat),
    readLE (pre ++ leBytes k n ++ rest) pre.length k = n := by
  intro k
  induction k with
  | zero => intro n hn pre rest; norm_num at hn; simp [readLE, leBytes, hn]
  | succ k ih =>
    intro n hn pre rest
    rw [leBytes, readLE]
    have hih := ih (n / 256)
      (by
        have he : 8 * (k + 1) = 8 * k + 8 := by ring
        rw [he, pow_add] at hn
        exact Nat.div_lt_of_lt_mul (by rw [Nat.mul_comm] at hn; norm_num at hn ⊢; exact hn))
      (pre ++ [n % 256]) rest
    simp only [List.append_assoc, List.singleton_append, List.cons_append, List.nil_append,
      List.length_append, List.length_cons, List.length_nil, List.length_singleton,
      Nat.zero_add, Nat.add_zero] at hih ⊢
    rw [readAt_append, hih]
    omega

theorem float_read {b : Nat} (hb : b < 2 ^ 64) (pre rest : List Nat) :
    Reader.float (pre ++ leBytes 8 b ++ rest) pre.length =
      .ok (b, pre.length + 8) := by
  unfold Reader.float
  rw [if_neg (by simp [leBytes_length])]
  rw [readLE_read 8 b (by norm_num at hb ⊢; omega) pre rest]

/-! ## UTF-8 byte-level identities (bounded, by `decide`) -/

theorem or128_eq : ∀ m, m < 64 → 128 ||| m = 128 + m := by decide

theorem or192_eq : ∀ m, m < 32 → 192 ||| m = 192 + m := by decide

theorem or224_eq : ∀ m, m < 16 → 224 ||| m = 224 + m := by decide

theorem or240_eq : ∀ m, m < 8 → 240 ||| m = 240 + m := by decide

theorem lead2_tests : ∀ m, m < 32 →
    ¬(192 + m ≤ 127) ∧ (192 + m) &&& 224 = 192 ∧ (192 + m) &&& 31 = m := by decide

theorem lead3_tests : ∀ m, m < 16 →
    ¬(224 + m ≤ 127) ∧ ¬((224 + m) &&& 224 = 192) ∧ (224 + m) &&& 240 = 224 ∧
      (224 + m) &&& 15 = m := by decide

theorem lead4_tests : ∀ m, m < 8 →
    ¬(240 + m ≤ 127) ∧ ¬((240 + m) &&& 224 = 192) ∧ ¬((240 + m) &&& 240 = 224) ∧
      (240 + m) &&& 248 = 240 ∧ (240 + m) &&& 7 = m := by decide

theorem cont_and63 : ∀ m, m < 64 → (128 + m) &&& 63 = m := by decide

theorem and63_eq_mod (x : Nat) : x &&& 63 = x % 64 := by
  have h := Nat.and_pow_two_sub_one_eq_mod x 6
  norm_num at h
  exact h

theorem and1023_eq_mod (x : Nat) : x &&& 1023 = x % 1024 := by
  have h := Nat.and_pow_two_sub_one_eq_mod x 10
  norm_num at h
  exact h

theorem shr6_eq (x : Nat) : x >>> 6 = x / 64 := by
  rw [Nat.shiftRight_eq_div_pow]

theorem shr10_eq (x : Nat) : x >>> 10 = x / 1024 := by
  rw [Nat.shiftRight_eq_div_pow]

theorem shr12_eq (x : Nat) : x >>> 12 = x / 4096 := by
  rw [Nat.shiftRight_eq_div_pow]

theorem shr18_eq (x : Nat) : x >>> 18 = x / 262144 := by
  rw [Nat.shiftRight_eq_div_pow]

theorem utf8_dec2 {c : Nat} (h1 : 0x7F < c) (h2 : c ≤ 0x7FF) :
    (((0xC0 ||| (c >>> 6)) &&& 0x1F) <<< 6) ||| ((0x80 ||| (c &&& 0x3F)) &&& 0x3F) = c := by
  rw [shr6_eq c, and63_eq_mod c]
  rw [or192_eq (c / 64) (by omega), or128_eq (c % 64) (by omega)]
  rw [(lead2_tests (c / 64) (by omega)).2.2, cont_and63 (c % 64) (by omega)]
  rw [Nat.shiftLeft_eq, show c / 64 * 2 ^ 6 = 2 ^ 6 * (c / 64) by ring]
  rw [two_pow_mul_lor (c / 64) (show c % 64 < 2 ^ 6 by omega)]
  omega

theorem utf8_dec3 {c : Nat} (h1 : 0x7FF < c) (h2 : c < 0x10000) :
    ((((0xE0 ||| (c >>> 12)) &&& 0x0F) <<< 12) |||
      (((0x80 ||| ((c >>> 6) &&& 0x3F)) &&& 0x3F) <<< 6)) |||
      ((0x80 ||| (c &&& 0x3F)) &&& 0x3F) = c := by
  rw [shr12_eq c, shr6_eq c, and63_eq_mod (c / 64), and63_eq_mod c]
  rw [or224_eq (c / 4096) (by omega), or128_eq (c / 64 % 64) (by omega),
    or128_eq (c % 64) (by omega)]
  rw [(lead3_tests (c / 4096) (by omega)).2.2.2, cont_and63 (c / 64 % 64) (by omega),
    cont_and63 (c % 64) (by omega)]
  rw [Nat.shiftLeft_eq, Nat.shiftLeft_eq]
  rw [show c / 4096 * 2 ^ 12 = 2 ^ 12 * (c / 4096) by ring]
  rw [two_pow_mul_lor (c / 4096) (show c / 64 % 64 * 2 ^ 6 < 2 ^ 12 by omega)]
  rw [lor_of_lt (k := 6)
    (show (2 ^ 12 * (c / 4096) + c / 64 % 64 * 2 ^ 6) % 2 ^ 6 = 0 by omega)
    (show c % 64 < 2 ^ 6 by omega)]
  omega

set_option maxRecDepth 8000 in
theorem utf8_dec4 {cp : Nat} (h : cp < 2 ^ 21) :
    ((((0xF0 ||| (cp >>> 18)) &&& 0x07) <<< 18) |||
      (((0x80 ||| ((cp >>> 12) &&& 0x3F)) &&& 0x3F) <<< 12) |||
      (((0x80 ||| ((cp >>> 6) &&& 0x3F)) &&& 0x3F) <<< 6)) |||
      ((0x80 ||| (cp &&& 0x3F)) &&& 0x3F) = cp := by
  rw [shr18_eq cp, shr12_eq cp, shr6_eq cp, and63_eq_mod (cp / 4096),
    and63_eq_mod (cp / 64), and63_eq_mod cp]
  rw [or240_eq (cp / 262144) (by omega), or128_eq (cp / 4096 % 64) (by omega),
    or128_eq (cp / 64 % 64) (by omega), or128_eq (cp % 64) (by omega)]
  rw [(lead4_tests (cp / 262144) (by omega)).2.2.2.2, cont_and63 (cp / 4096 % 64) (by omega),
    cont_and63 (cp / 64 % 64) (by omega), cont_and63 (cp % 64) (by omega)]
  rw [Nat.shiftLeft_eq, Nat.shiftLeft_eq, Nat.shiftLeft_eq]
  rw [show cp / 262144 * 2 ^ 18 = 2 ^ 18 * (cp / 262144) by ring]
  rw [two_pow_mul_lor (cp / 262144) (show cp / 4096 % 64 * 2 ^ 12 < 2 ^ 18 by omega)]
  rw [lor_of_lt (k := 12)
    (show (2 ^ 18 * (cp / 262144) + cp / 4096 % 64 * 2 ^ 12) % 2 ^ 12 = 0 by omega)
    (show cp / 64 % 64 * 2 ^ 6 < 2 ^ 12 by omega)]
  rw [lor_of_lt (k := 6) (by omega) (show cp % 64 < 2 ^ 6 by omega)]
  omega

theorem surr_hi_and : ∀ m, m < 1024 → (55296 + m) &&& 1023 = m := by
  intro m hm
  rw [and1023_eq_mod]
  omega

theorem surr_lo_and : ∀ m, m < 1024 → (56320 + m) &&& 1023 = m := by
  intro m hm
  rw [and1023_eq_mod]
  omega

theorem fromCodePoint_pair {h l : Nat} (hh1 : 0xD800 ≤ h) (hh2 : h < 0xDC00)
    (hl1 : 0xDC00 ≤ l) (hl2 : l < 0xE000) :
    fromCodePoint (0x10000 + ((h &&& 0x3FF) <<< 10) + (l &&& 0x3FF)) = [h, l] := by
  have hha : h &&& 1023 = h - 55296 := by
    have := surr_hi_and (h - 55296) (by omega)
    rw [show 55296 + (h - 55296) = h by omega] at this
    exact this
  have hla : l &&& 1023 = l - 56320 := by
    have := surr_lo_and (l - 56320) (by omega)
    rw [show 56320 + (l - 56320) = l by omega] at this
    exact this
  unfold fromCodePoint
  rw [Nat.shiftLeft_eq] at *
  norm_num [hha, hla]
  rw [if_neg (by omega)]
  rw [show 65536 + (h - 55296) * 1024 + (l - 56320) - 65536 =
    (h - 55296) * 1024 + (l - 56320) by omega]
  rw [shr10_eq, and1023_eq_mod]
  rw [show ((h - 55296) * 1024 + (l - 56320)) / 1024 = h - 55296 from by omega]
  rw [show ((h - 55296) * 1024 + (l - 56320)) % 1024 = l - 56320 from by omega]
  simp only [List.cons.injEq, and_true]
  exact ⟨by omega, by omega⟩

theorem rawLoop_read : ∀ (bs pre rest : List Nat),
    Reader.rawLoop (pre ++ bs ++ rest) pre.length bs.length =
      (bs, pre.length + bs.length) := by
  intro bs
  induction bs with
  | nil => intro pre rest; simp [Reader.rawLoop]
  | cons b t ih =>
    intro pre rest
    rw [List.length_cons, Reader.rawLoop]
    have hih := ih (pre ++ [b]) rest
    simp only [List.append_assoc, List.singleton_append, List.cons_append, List.nil_append,
      List.length_append, List.length_cons, List.length_nil,
      Nat.zero_add, Nat.add_zero] at hih ⊢
    rw [hih, readAt_append]
    simp only [Prod.mk.injEq, true_and]
    omega

theorem readAt_append1 (pre : List Nat) (x y : Nat) (r : List Nat) :
    readAt (pre ++ x :: y :: r) (pre.length + 1) = y := by
  have h := readAt_append (pre ++ [x]) y r
  simpa using h

theorem readAt_append2 (pre : List Nat) (x y z : Nat) (r : List Nat) :
    readAt (pre ++ x :: y :: z :: r) (pre.length + 2) = z := by
  have h := readAt_append (pre ++ [x, y]) z r
  simpa [Nat.add_assoc] using h

theorem readAt_append3 (pre : List Nat) (x y z w : Nat) (r : List Nat) :
    readAt (pre ++ x :: y :: z :: w :: r) (pre.length + 3) = w := by
  have h := readAt_append (pre ++ [x, y, z]) w r
  simpa [Nat.add_assoc] using h

theorem strLoop_read : ∀ (s : List Nat), wfUnits s = true → ∀ (pre post : List Nat),
    Reader.strLoop (pre ++ utf8Bytes s ++ post) pre.length
        (pre.length + (utf8Bytes s).length) =
      .ok (s, pre.length + (utf8Bytes s).length) := by
  intro s
  induction s using wfUnits.induct with
  | case1 =>
    intro _ pre post
    rw [utf8Bytes, Reader.strLoop]
    simp
  | case2 c rest h ih =>
    intro hwf pre post
    rw [wfUnits.eq_def] at hwf
    simp only [if_pos h, Bool.and_eq_true, decide_eq_true_eq] at hwf
    obtain ⟨hc16, hwfr⟩ := hwf
    by_cases hc1 : c ≤ 0x7F
    · rw [utf8Bytes]
      rw [if_pos hc1]
      have hih := ih hwfr (pre ++ [c]) post
      simp only [List.append_assoc, List.singleton_append, List.cons_append, List.nil_append,
        List.length_append, List.length_cons, List.length_nil, Nat.zero_add,
        Nat.add_zero] at hih ⊢
      rw [Reader.strLoop]
      rw [dif_pos (by omega)]
      simp only [readAt_append, if_pos hc1]
      rw [show pre.length + ((utf8Bytes rest).length + 1) =
        pre.length + 1 + (utf8Bytes rest).length from by omega]
      rw [hih]
    · by_cases hc2 : c ≤ 0x7FF
      · rw [utf8Bytes]
        rw [if_neg hc1, if_pos hc2]
        have t2 := lead2_tests (c / 64) (by omega)
        have hb0le : ¬(0xC0 ||| (c >>> 6) ≤ 0x7F) := by
          rw [shr6_eq c, or192_eq (c / 64) (by omega)]
          exact t2.1
        have hb0and : (0xC0 ||| (c >>> 6)) &&& 0xE0 = 0xC0 := by
          rw [shr6_eq c, or192_eq (c / 64) (by omega)]
          exact t2.2.1
        have hdec := utf8_dec2 (c := c) (by omega) (by omega)
        have hih := ih hwfr (pre ++ [0xC0 ||| (c >>> 6), 0x80 ||| (c &&& 0x3F)]) post
        simp only [List.append_assoc, List.singleton_append, List.cons_append, List.nil_append,
          List.length_append, List.length_cons, List.length_nil, Nat.zero_add,
          Nat.add_zero, Nat.reduceAdd] at hih ⊢
        rw [Reader.strLoop]
        rw [dif_pos (by omega)]
        simp only [readAt_append, readAt_append1, if_neg hb0le, if_pos hb0and, hdec]
        rw [show pre.length + ((utf8Bytes rest).length + 1 + 1) =
          pre.length + 2 + (utf8Bytes rest).length from by omega]
        rw [hih]
      · rw [utf8Bytes]
        rw [if_neg hc1, if_neg hc2, if_neg (by omega)]
        have t3 := lead3_tests (c / 4096) (by omega)
        have hb0le : ¬(0xE0 ||| (c >>> 12) ≤ 0x7F) := by
          rw [shr12_eq c, or224_eq (c / 4096) (by omega)]
          exact t3.1
        have hb0c0 : ¬((0xE0 ||| (c >>> 12)) &&& 0xE0 = 0xC0) := by
          rw [shr12_eq c, or224_eq (c / 4096) (by omega)]
          exact t3.2.1
        have hb0e0 : (0xE0 ||| (c >>> 12)) &&& 0xF0 = 0xE0 := by
          rw [shr12_eq c, or224_eq (c / 4096) (by omega)]
          exact t3.2.2.1
        have hdec := utf8_dec3 (c := c) (by omega) (by omega)
        have hih := ih hwfr
          (pre ++ [0xE0 ||| (c >>> 12), 0x80 ||| ((c >>> 6) &&& 0x3F), 0x80 ||| (c &&& 0x3F)]) post
        simp only [List.append_assoc, List.singleton_append, List.cons_append, List.nil_append,
          List.length_append, List.length_cons, List.length_nil, Nat.zero_add,
          Nat.add_zero, Nat.reduceAdd] at hih ⊢
        rw [Reader.strLoop]
        rw [dif_pos (by omega)]
        simp only [readAt_append, readAt_append1, readAt_append2, if_neg hb0le,
          if_neg hb0c0, if_pos hb0e0, hdec]
        rw [show pre.length + ((utf8Bytes rest).length + 1 + 1 + 1) =
          pre.length + 3 + (utf8Bytes rest).length from by omega]
        rw [hih]
  | case3 c h1 h2 =>
    intro hwf
    rw [wfUnits.eq_def] at hwf
    simp only [if_neg h1, if_pos h2] at hwf
    simp at hwf
  | case4 c h1 h2 l rest2 ih =>
    intro hwf pre post
    rw [wfUnits.eq_def] at hwf
    simp only [if_neg h1, if_pos h2, Bool.and_eq_true, decide_eq_true_eq] at hwf
    obtain ⟨⟨hl1, hl2⟩, hwfr⟩ := hwf
    have hcr : 55296 ≤ c ∧ c ≤ 57343 := by omega
    rw [utf8Bytes]
    rw [if_neg (by omega), if_neg (by omega), if_pos hcr]
    simp only [List.headD_cons, List.tail_cons]
    have hha : c &&& 1023 = c - 55296 := by
      have hx := surr_hi_and (c - 55296) (by omega)
      rw [show 55296 + (c - 55296) = c from by omega] at hx
      exact hx
    have hla : l &&& 1023 = l - 56320 := by
      have hx := surr_lo_and (l - 56320) (by omega)
      rw [show 56320 + (l - 56320) = l from by omega] at hx
      exact hx
    have hcp21 : 0x10000 + ((c &&& 0x3FF) <<< 10) + (l &&& 0x3FF) < 2 ^ 21 := by
      rw [Nat.shiftLeft_eq, hha, hla]
      omega
    have hcpmax : ¬(0x10FFFF < 0x10000 + ((c &&& 0x3FF) <<< 10) + (l &&& 0x3FF)) := by
      rw [Nat.shiftLeft_eq, hha, hla]
      omega
    have hsh18 : (0x10000 + ((c &&& 0x3FF) <<< 10) + (l &&& 0x3FF)) / 262144 < 8 := by
      rw [Nat.shiftLeft_eq, hha, hla]
      omega
    have t4 := lead4_tests ((0x10000 + ((c &&& 0x3FF) <<< 10) + (l &&& 0x3FF)) / 262144) hsh18
    have hb0le : ¬(0xF0 ||| ((0x10000 + ((c &&& 0x3FF) <<< 10) + (l &&& 0x3FF)) >>> 18) ≤ 0x7F) := by
      rw [shr18_eq, or240_eq _ hsh18]
      exact t4.1
    have hb0c0 : ¬((0xF0 ||| ((0x10000 + ((c &&& 0x3FF) <<< 10) + (l &&& 0x3FF)) >>> 18)) &&& 0xE0 = 0xC0) := by
      rw [shr18_eq, or240_eq _ hsh18]
      exact t4.2.1
    have hb0e0 : ¬((0xF0 ||| ((0x10000 + ((c &&& 0x3FF) <<< 10) + (l &&& 0x3FF)) >>> 18)) &&& 0xF0 = 0xE0) := by
      rw [shr18_eq, or240_eq _ hsh18]
      exact t4.2.2.1
    have hb0f0 : (0xF0 ||| ((0x10000 + ((c &&& 0x3FF) <<< 10) + (l &&& 0x3FF)) >>> 18)) &&& 0xF8 = 0xF0 := by
      rw [shr18_eq, or240_eq _ hsh18]
      exact t4.2.2.2.1
    have hdec := utf8_dec4 hcp21
    have hpair := fromCodePoint_pair (h := c) (l := l) (by omega) (by omega) (by omega) (by omega)
    have hih := ih hwfr
      (pre ++ [0xF0 ||| ((0x10000 + ((c &&& 0x3FF) <<< 10) + (l &&& 0x3FF)) >>> 18),
        0x80 ||| (((0x10000 + ((c &&& 0x3FF) <<< 10) + (l &&& 0x3FF)) >>> 12) &&& 0x3F),
        0x80 ||| (((0x10000 + ((c &&& 0x3FF) <<< 10) + (l &&& 0x3FF)) >>> 6) &&& 0x3F),
        0x80 ||| ((0x10000 + ((c &&& 0x3FF) <<< 10) + (l &&& 0x3FF)) &&& 0x3F)]) post
    simp only [List.append_assoc, List.singleton_append, List.cons_append, List.nil_append,
      List.length_append, List.length_cons, List.length_nil, Nat.zero_add,
      Nat.add_zero, Nat.reduceAdd] at hih ⊢
    rw [Reader.strLoop]
    rw [dif_pos (by omega)]
    simp only [readAt_append, readAt_append1, readAt_append2, readAt_append3,
      if_neg hb0le, if_neg hb0c0, if_neg hb0e0, if_pos hb0f0, hdec,
      if_neg hcpmax, hpair]
    rw [show pre.length + ((utf8Bytes rest2).length + 1 + 1 + 1 + 1) =
      pre.length + 4 + (utf8Bytes rest2).length from by omega]
    rw [hih]
    simp
  | case5 c rest h1 h2 =>
    intro hwf
    rw [wfUnits.eq_def] at hwf
    simp only [if_neg h1, if_neg h2] at hwf
    simp at hwf

theorem and255_eq_mod (x : Nat) : x &&& 255 = x % 256 := by
  have h := Nat.and_pow_two_sub_one_eq_mod x 8
  norm_num at h
  exact h

theorem string_read {c : Cfg} {s : JsStr} (hok : strOKb c.noUtf8 s = true)
    (pre post : List Nat) :
    Reader.string c (pre ++ strBytes c s ++ post) pre.length =
      .ok (s, pre.length + (strBytes c s).length) := by
  by_cases hn : c.noUtf8
  · have hsb : strBytes c s = vuBytes (toUint32 (s.length : Int)) ++
        s.map (fun c => c &&& 0xFF) := by
      unfold strBytes
      rw [if_pos hn]
    rw [strOKb, if_pos hn] at hok
    simp only [Bool.and_eq_true, decide_eq_true_eq, List.all_eq_true] at hok
    obtain ⟨hlen, hall⟩ := hok
    have hmap : s.map (fun c => c &&& 0xFF) = s := by
      conv_rhs => rw [← List.map_id s]
      refine List.map_congr_left (fun c hc => ?_)
      have := hall c hc
      rw [and255_eq_mod]
      simp at this ⊢
      omega
    have hcast : toUint32 (s.length : Int) = s.length :=
      toUint32_natCast_of_lt (by norm_num at hlen ⊢; omega)
    rw [hsb, hcast, hmap]
    unfold Reader.string
    rw [if_pos hn]
    have hvu := vu_read (m := s.length) (by norm_num at hlen ⊢; omega) pre (s ++ post)
    rw [show pre ++ (vuBytes s.length ++ s) ++ post =
      pre ++ vuBytes s.length ++ (s ++ post) from by simp]
    rw [hvu]
    rw [toInt32_of_lt (by norm_num at hlen ⊢; omega)]
    dsimp only
    rw [if_neg (by push_cast; simp; omega)]
    have hraw := rawLoop_read s (pre ++ vuBytes s.length) post
    simp only [List.append_assoc, List.length_append] at hraw ⊢
    rw [Int.toNat_natCast, hraw]
    simp [Nat.add_assoc]
  · have hn2 : ¬(c.noUtf8 = true) := by simp [hn]
    have hsb : strBytes c s = vuBytes (toUint32 (utf8Len s : Int)) ++ utf8Bytes s := by
      unfold strBytes
      rw [if_neg hn2]
    rw [strOKb, if_neg hn2] at hok
    simp only [Bool.and_eq_true, decide_eq_true_eq] at hok
    obtain ⟨hwf, hlen⟩ := hok
    have hcast : toUint32 (utf8Len s : Int) = utf8Len s :=
      toUint32_natCast_of_lt (by norm_num at hlen ⊢; omega)
    rw [hsb, hcast]
    unfold Reader.string
    rw [if_neg hn2]
    have hvu := vu_read (m := utf8Len s) (by norm_num at hlen ⊢; omega) pre
      (utf8Bytes s ++ post)
    rw [show pre ++ (vuBytes (utf8Len s) ++ utf8Bytes s) ++ post =
      pre ++ vuBytes (utf8Len s) ++ (utf8Bytes s ++ post) from by simp]
    rw [hvu]
    rw [toInt32_of_lt (by norm_num at hlen ⊢; omega)]
    dsimp only
    rw [if_neg (by push_cast; simp [utf8Bytes_length]; omega)]
    have hstr := strLoop_read s hwf (pre ++ vuBytes (utf8Len s)) post
    rw [utf8Bytes_length] at hstr
    rw [show ((pre.length + (vuBytes (utf8Len s)).length : Nat) : Int) + (utf8Len s : Int) =
      ((pre.length + (vuBytes (utf8Len s)).length + utf8Len s : Nat) : Int) from by push_cast; ring]
    rw [Int.toNat_natCast]
    simp only [List.append_assoc, List.length_append] at hstr ⊢
    rw [hstr, utf8Bytes_length]
    congr 2
    omega

/-! ## Whole-value decode of an encoding -/

mutual

/-- Nesting depth of a value: an upper bound on the recursion depth of
`Reader.data` while decoding its encoding. -/
def depth : OABDATA → Nat
  | .arr xs => 1 + depthList xs
  | .obj kvs => 1 + depthObj kvs
  | _ => 1

/-- Maximum depth of the elements. -/
def depthList : List OABDATA → Nat
  | [] => 0
  | x :: r => max (depth x) (depthList r)

/-- Maximum depth of the values. -/
def depthObj : List (JsStr × OABDATA) → Nat
  | [] => 0
  | p :: r => max (depth p.2) (depthObj r)

end

theorem depthList_le {x : OABDATA} {xs : List OABDATA} (h : x ∈ xs) :
    depth x ≤ depthList xs := by
  induction xs with
  | nil => simp at h
  | cons y t ih =>
    rw [depthList]
    rcases List.mem_cons.1 h with rfl | h2
    · exact le_max_left _ _
    · exact le_trans (ih h2) (le_max_right _ _)

theorem depthObj_le {p : JsStr × OABDATA} {kvs : List (JsStr × OABDATA)} (h : p ∈ kvs) :
    depth p.2 ≤ depthObj kvs := by
  induction kvs with
  | nil => simp at h
  | cons q t ih =>
    rw [depthObj]
    rcases List.mem_cons.1 h with rfl | h2
    · exact le_max_left _ _
    · exact le_trans (ih h2) (le_max_right _ _)

theorem u8_read (pre : List Nat) (x : Nat) (r : List Nat) :
    Reader.u8 (pre ++ x :: r) pre.length = .ok (x, pre.length + 1) := by
  unfold Reader.u8
  rw [if_neg (by simp), readAt_append]

theorem getElemQ_append (pre : List Nat) (x : Nat) (r : List Nat) :
    (pre ++ x :: r)[pre.length]? = some x := by
  rw [List.getElem?_append_right (le_refl _)]
  simp

theorem toInt32_toUint32_pos {n : Int} (h0 : 0 ≤ n) (h31 : n < 2 ^ 31) :
    toInt32 (toUint32 n) = n := by
  unfold toInt32 toUint32
  split <;> omega

theorem toUint32_lt31 {n : Int} (h0 : 0 ≤ n) (h31 : n < 2 ^ 31) :
    toUint32 n < 2 ^ 31 := by
  unfold toUint32
  omega

theorem invLookupFrom_spec : ∀ (dict : List JsStr) (start : Nat) (k : JsStr) (j : Nat),
    invLookupFrom dict start k = some j →
      start ≤ j ∧ j - start < dict.length ∧ dict[j - start]? = some k := by
  intro dict
  induction dict with
  | nil => intro start k j h; simp [invLookupFrom] at h
  | cons s rest ih =>
    intro start k j h
    rw [invLookupFrom] at h
    cases hr : invLookupFrom rest (start + 1) k with
    | some j2 =>
      rw [hr] at h
      obtain rfl := Option.some.inj h
      have := ih (start + 1) k j2 hr
      refine ⟨by omega, by simp; omega, ?_⟩
      rw [show j2 - start = (j2 - (start + 1)) + 1 from by omega]
      simpa using this.2.2
    | none =>
      rw [hr] at h
      by_cases hk : k = s
      · rw [if_pos hk] at h
        obtain rfl := Option.some.inj h
        subst hk
        simp
      · rw [if_neg hk] at h
        cases h

theorem invLookup_spec {dict : List JsStr} {k : JsStr} {i : Nat}
    (h : invLookup dict k = some i) : i < dict.length ∧ dict[i]? = some k := by
  unfold invLookup at h
  split at h
  · cases h
  · have := invLookupFrom_spec dict 0 k i h
    simpa using this

theorem bitsToNum_float {bits : Nat} (h2047 : f64Exp bits ≠ 2047)
    (hint : (f64IntMag bits).isNone = true) : bitsToNum bits = .float bits := by
  unfold bitsToNum
  rw [if_neg h2047]
  cases hmag : f64IntMag bits with
  | some m => rw [hmag] at hint; simp at hint
  | none => rfl

theorem objInsert_notmem {acc : List (JsStr × OABDATA)} {k : JsStr} {v : OABDATA}
    (h : ∀ p ∈ acc, p.1 ≠ k) : objInsert acc k v = acc ++ [(k, v)] := by
  unfold objInsert
  rw [if_neg ?_]
  simp only [List.any_eq_true, beq_iff_eq, not_exists]
  intro p
  intro hcon
  exact absurd hcon.2 (h p hcon.1)

theorem depth_pos (v : OABDATA) : 1 ≤ depth v := by
  cases v <;> simp [depth]

/-- The prototype effect `Reader.data` reports for a representable decoded
value (a representable map has no `Object.prototype`-named keys, so its
decode loop keeps the accessor reachable and ends with `some true`). -/
def protoFx : OABDATA → Option Bool
  | .null => some false
  | .arr _ => some true
  | .obj _ => some true
  | _ => none

theorem notmem_ne_protoKey {k : JsStr} (h : objectProtoKeys.contains k = false) :
    ¬(k = protoKey) := by
  intro he
  subst he
  rw [show objectProtoKeys.contains protoKey = true from by decide] at h
  cases h

/-- Decoding the encoding of `v` at any position, with fuel at least the
nesting depth of `v`, yields `v` (with its prototype effect) and advances
past its bytes. -/
def ReadOK (cfg : Cfg) (v : OABDATA) : Prop :=
  ∀ (pre post : List Nat) (fuel : Nat), depth v ≤ fuel →
    Reader.data cfg (pre ++ encBytes cfg v ++ post) fuel pre.length =
      .ok (v, protoFx v, pre.length + (encBytes cfg v).length)

theorem contains_false_notmem {l : List JsStr} {k : JsStr}
    (h : l.contains k = false) : k ∉ l := by
  intro hmem
  have h2 : l.contains k = true := by
    rw [List.contains_iff_exists_mem_beq]
    exact ⟨k, hmem, by simp⟩
  rw [h2] at h
  cases h

theorem dataArrR_read (cfg : Cfg) :
    ∀ (xs : List OABDATA), (∀ x ∈ xs, ReadOK cfg x) →
    reprListOK cfg.noUtf8 xs = true →
    ∀ (acc : List OABDATA) (pre post : List Nat) (fuel : Nat), depthList xs ≤ fuel →
    Reader.dataArr cfg (pre ++ encList cfg xs ++ post) fuel xs.length pre.length acc =
      .ok (.arr (acc ++ xs), some true, pre.length + (encList cfg xs).length) := by
  intro xs
  induction xs with
  | nil =>
    intro _ _ acc pre post fuel _
    rw [encList, Reader.dataArr.eq_def]
    simp
  | cons x t ih =>
    intro hx hr acc pre post fuel hf
    rw [reprListOK] at hr
    simp only [Bool.and_eq_true] at hr
    rw [encList, List.length_cons, Reader.dataArr.eq_def]
    have hdx := hx x (by simp) pre (encList cfg t ++ post) fuel
      (le_trans (depthList_le (by simp)) hf)
    rw [show pre ++ (encBytes cfg x ++ encList cfg t) ++ post =
      pre ++ encBytes cfg x ++ (encList cfg t ++ post) from by simp]
    simp only [hdx]
    have hih := ih (fun y hy => hx y (by simp [hy])) hr.2 (acc ++ [x])
      (pre ++ encBytes cfg x) post fuel
      (le_trans (by rw [depthList]; exact le_max_right _ _) hf)
    simp only [List.append_assoc, List.length_append] at hih ⊢
    rw [hih]
    simp only [List.append_assoc, List.singleton_append, Except.ok.injEq, Prod.mk.injEq]
    exact ⟨by trivial, by trivial, by omega⟩

theorem dataObjR_read (cfg : Cfg) (hcfg : cfg.lookup.length ≤ 2 ^ 31) :
    ∀ (kvs : List (JsStr × OABDATA)), (∀ p ∈ kvs, ReadOK cfg p.2) →
    reprObjOK cfg.noUtf8 kvs = true →
    nodupKeys (kvs.map Prod.fst) = true →
    ∀ (acc : List (JsStr × OABDATA)), (∀ p ∈ acc, ∀ q ∈ kvs, p.1 ≠ q.1) →
    ∀ (pre post : List Nat) (fuel : Nat), depthObj kvs ≤ fuel →
    Reader.dataObj cfg (pre ++ encObj cfg kvs ++ post) fuel kvs.length pre.length acc true =
      .ok (.obj (acc ++ kvs), some true, pre.length + (encObj cfg kvs).length) := by
  intro kvs
  induction kvs with
  | nil =>
    intro _ _ _ acc _ pre post fuel _
    rw [encObj, Reader.dataObj.eq_def]
    simp
  | cons p t ih =>
    obtain ⟨k, v⟩ := p
    intro hx hr hnd acc hdisj pre post fuel hf
    rw [reprObjOK] at hr
    simp only [Bool.and_eq_true, Bool.not_eq_true'] at hr
    have hkp : ¬(k = protoKey ∧ True) :=
      fun hco => notmem_ne_protoKey hr.1.1.2 hco.1
    rw [List.map_cons, nodupKeys] at hnd
    simp only [Bool.and_eq_true, Bool.not_eq_true'] at hnd
    rw [encObj, List.length_cons, Reader.dataObj.eq_def]
    have hins : objInsert acc k v = acc ++ [(k, v)] :=
      objInsert_notmem (fun q hq => hdisj q hq (k, v) (by simp))
    have hdisj2 : ∀ p2 ∈ acc ++ [(k, v)], ∀ q ∈ t, p2.1 ≠ q.1 := by
      intro p2 hp2 q hq
      rcases List.mem_append.1 hp2 with hp2 | hp2
      · exact hdisj p2 hp2 q (by simp [hq])
      · simp at hp2
        subst hp2
        intro hcon
        simp at hcon
        exact contains_false_notmem hnd.1
          (by rw [hcon]; exact List.mem_map_of_mem Prod.fst hq)
    have hdv := hx (k, v) (by simp)
    cases hk : invLookup cfg.lookup k with
    | none =>
      simp only [hk, hr.1.1.2, Bool.false_eq_true, if_false]
      rw [show pre ++ ((1 :: strBytes cfg k) ++ encBytes cfg v ++ encObj cfg t) ++ post =
        pre ++ 1 :: (strBytes cfg k ++ (encBytes cfg v ++ (encObj cfg t ++ post)))
        from by simp]
      have hks := string_read (c := cfg) hr.1.1.1 (pre ++ [1])
        (encBytes cfg v ++ (encObj cfg t ++ post))
      simp only [List.append_assoc, List.singleton_append, List.cons_append, List.nil_append,
        List.length_append, List.length_cons, List.length_nil, Nat.zero_add,
        Nat.add_zero] at hks ⊢
      have hdv2 := hdv (pre ++ 1 :: strBytes cfg k) (encObj cfg t ++ post) fuel
        (le_trans (depthObj_le (p := (k, v)) (by simp)) hf)
      simp only [List.append_assoc, List.singleton_append, List.cons_append, List.nil_append,
        List.length_append, List.length_cons, List.length_nil, Nat.zero_add,
        Nat.add_zero] at hdv2
      rw [show pre.length + ((strBytes cfg k).length + 1) =
        pre.length + 1 + (strBytes cfg k).length from by omega] at hdv2
      simp only [getElemQ_append, hks, hdv2]
      rw [if_neg hkp]
      simp only [hins]
      have hih := ih (fun q hq => hx q (by simp [hq])) hr.2 hnd.2 (acc ++ [(k, v)]) hdisj2
        (pre ++ 1 :: (strBytes cfg k ++ encBytes cfg v)) post fuel
        (le_trans (by rw [depthObj]; exact le_max_right _ _) hf)
      simp only [List.append_assoc, List.singleton_append, List.cons_append, List.nil_append,
        List.length_append, List.length_cons, List.length_nil, Nat.zero_add,
        Nat.add_zero] at hih
      rw [show pre.length + ((strBytes cfg k).length + (encBytes cfg v).length + 1) =
        pre.length + 1 + (strBytes cfg k).length + (encBytes cfg v).length
        from by omega] at hih
      rw [hih]
      simp only [Except.ok.injEq, Prod.mk.injEq]
      exact ⟨by trivial, by trivial, by omega⟩
    | some i =>
      simp only [hk]
      obtain ⟨hilt, hidx⟩ := invLookup_spec hk
      have hi31 : i < 2 ^ 31 := by omega
      have hcast : toUint32 (i : Int) = i :=
        toUint32_natCast_of_lt (by norm_num at hi31 ⊢; omega)
      rw [show pre ++ ((2 :: vuBytes (toUint32 (i : Int))) ++ encBytes cfg v ++ encObj cfg t) ++ post =
        pre ++ 2 :: (vuBytes (toUint32 (i : Int)) ++ (encBytes cfg v ++ (encObj cfg t ++ post)))
        from by simp]
      rw [hcast]
      have hvu := vu_read (m := i) (by norm_num at hi31 ⊢; omega) (pre ++ [2])
        (encBytes cfg v ++ (encObj cfg t ++ post))
      rw [toInt32_of_lt hi31] at hvu
      simp only [List.append_assoc, List.singleton_append, List.cons_append, List.nil_append,
        List.length_append, List.length_cons, List.length_nil, Nat.zero_add,
        Nat.add_zero] at hvu ⊢
      have hlook : lookupAt cfg.lookup ((i : Nat) : Int) = some k := by
        unfold lookupAt
        rw [if_neg (by omega)]
        simpa using hidx
      have hdv2 := hdv (pre ++ 2 :: vuBytes i) (encObj cfg t ++ post) fuel
        (le_trans (depthObj_le (p := (k, v)) (by simp)) hf)
      simp only [List.append_assoc, List.singleton_append, List.cons_append, List.nil_append,
        List.length_append, List.length_cons, List.length_nil, Nat.zero_add,
        Nat.add_zero] at hdv2
      rw [show pre.length + ((vuBytes i).length + 1) =
        pre.length + 1 + (vuBytes i).length from by omega] at hdv2
      simp only [getElemQ_append, hvu, hlook, hdv2]
      rw [if_neg hkp]
      simp only [hins]
      have hih := ih (fun q hq => hx q (by simp [hq])) hr.2 hnd.2 (acc ++ [(k, v)]) hdisj2
        (pre ++ 2 :: (vuBytes i ++ encBytes cfg v)) post fuel
        (le_trans (by rw [depthObj]; exact le_max_right _ _) hf)
      simp only [List.append_assoc, List.singleton_append, List.cons_append, List.nil_append,
        List.length_append, List.length_cons, List.length_nil, Nat.zero_add,
        Nat.add_zero] at hih
      rw [show pre.length + ((vuBytes i).length + (encBytes cfg v).length + 1) =
        pre.length + 1 + (vuBytes i).length + (encBytes cfg v).length
        from by omega] at hih
      rw [hih]
      simp only [Except.ok.injEq, Prod.mk.injEq]
      exact ⟨by trivial, by trivial, by omega⟩

theorem reprListOK_mem {nu : Bool} : ∀ {xs : List OABDATA}, reprListOK nu xs = true →
    ∀ x ∈ xs, reprOK nu x = true := by
  intro xs
  induction xs with
  | nil => intro _ x hx; simp at hx
  | cons y t ih =>
    intro h x hx
    rw [reprListOK] at h
    simp only [Bool.and_eq_true] at h
    rcases List.mem_cons.1 hx with rfl | hx2
    · exact h.1
    · exact ih h.2 x hx2

theorem reprObjOK_mem {nu : Bool} : ∀ {kvs : List (JsStr × OABDATA)}, reprObjOK nu kvs = true →
    ∀ p ∈ kvs, reprOK nu p.2 = true := by
  intro kvs
  induction kvs with
  | nil => intro _ p hp; simp at hp
  | cons q t ih =>
    obtain ⟨k, v⟩ := q
    intro h p hp
    rw [reprObjOK] at h
    simp only [Bool.and_eq_true] at h
    rcases List.mem_cons.1 hp with rfl | hp2
    · exact h.1.2
    · exact ih h.2 p hp2

theorem depthList_le_len {c : Cfg} : ∀ (xs : List OABDATA),
    (∀ x ∈ xs, depth x ≤ (encBytes c x).length) →
    depthList xs ≤ (encList c xs).length := by
  intro xs
  induction xs with
  | nil => intro _; rw [depthList]; omega
  | cons x t ih =>
    intro h
    rw [depthList, encList]
    simp only [List.length_append]
    have h1 := h x (by simp)
    have h2 := ih (fun y hy => h y (by simp [hy]))
    omega

theorem depthObj_le_len {c : Cfg} : ∀ (kvs : List (JsStr × OABDATA)),
    (∀ p ∈ kvs, depth p.2 ≤ (encBytes c p.2).length) →
    depthObj kvs ≤ (encObj c kvs).length := by
  intro kvs
  induction kvs with
  | nil => intro _; rw [depthObj]; omega
  | cons q t ih =>
    obtain ⟨k, v⟩ := q
    intro h
    rw [depthObj, encObj]
    simp only [List.length_append]
    have h1 := h (k, v) (by simp)
    have h2 := ih (fun p hp => h p (by simp [hp]))
    simp only at h1
    omega

/-- Each recursion level of the decoder consumes at least one byte, so the
nesting depth of a representable value is bounded by its encoded length. -/
theorem depth_le_enc_n (cfg : Cfg) (n : Nat) : ∀ v : OABDATA, sizeOf v ≤ n →
    reprOK cfg.noUtf8 v = true → depth v ≤ (encBytes cfg v).length := by
  induction n with
  | zero =>
    intro v hv
    exfalso
    cases v <;> simp at hv
  | succ n ih =>
    intro v hv hr
    cases v with
    | null => rw [depth.eq_def, encBytes]; simp
    | bool b => cases b <;> (rw [depth.eq_def, encBytes]; simp)
    | int m =>
      have hd : depth (OABDATA.int m) = 1 := by rw [depth.eq_def]
      rw [hd, encBytes]
      split <;> simp
    | float bits => rw [depth.eq_def, encBytes]; simp
    | nan => rw [reprOK] at hr; simp at hr
    | infinity b => rw [reprOK] at hr; simp at hr
    | undef => rw [reprOK] at hr; simp at hr
    | str s => rw [depth.eq_def, encBytes]; simp
    | arr xs =>
      rw [reprOK] at hr
      simp only [Bool.and_eq_true] at hr
      rw [depth.eq_def, encBytes]
      have hl := depthList_le_len (c := cfg) xs (fun x hx => by
        have hs : sizeOf x < sizeOf (OABDATA.arr xs) := by
          have := List.sizeOf_lt_of_mem hx
          simp
          omega
        exact ih x (by omega) (reprListOK_mem hr.2 x hx))
      simp only [List.length_cons, List.length_append]
      omega
    | obj kvs =>
      rw [reprOK] at hr
      simp only [Bool.and_eq_true] at hr
      rw [depth.eq_def, encBytes]
      have hl := depthObj_le_len (c := cfg) kvs (fun p hp => by
        have hs : sizeOf p.2 < sizeOf (OABDATA.obj kvs) := by
          have h1 := List.sizeOf_lt_of_mem hp
          obtain ⟨a, b⟩ := p
          simp at h1 ⊢
          omega
        exact ih p.2 (by omega) (reprObjOK_mem hr.2 p hp))
      simp only [List.length_cons, List.length_append]
      omega

theorem depth_le_enc {cfg : Cfg} {v : OABDATA} (hr : reprOK cfg.noUtf8 v = true) :
    depth v ≤ (encBytes cfg v).length :=
  depth_le_enc_n cfg (sizeOf v) v le_rfl hr

/-- Main reader correctness: decoding the encoding of any representable value,
at any position and with fuel at least its depth, returns the value. -/
theorem dataR_read_n (cfg : Cfg) (hcfg : cfg.lookup.length ≤ 2 ^ 31) (n : Nat) :
    ∀ v : OABDATA, sizeOf v ≤ n → reprOK cfg.noUtf8 v = true → ReadOK cfg v := by
  induction n with
  | zero =>
    intro v hv
    exfalso
    cases v <;> simp at hv
  | succ n ih =>
    intro v hv hr pre post fuel hfuel
    cases fuel with
    | zero =>
      exfalso
      have := depth_pos v
      omega
    | succ f =>
    cases v with
    | null =>
      rw [Reader.data.eq_def, encBytes]
      rw [show pre ++ [3] ++ post = pre ++ 3 :: post from by simp]
      simp only [u8_read]
      simp [protoFx]
    | bool b =>
      cases b with
      | true =>
        rw [Reader.data.eq_def, encBytes]
        rw [show pre ++ [1] ++ post = pre ++ 1 :: post from by simp]
        simp only [u8_read]
        simp
        rfl
      | false =>
        rw [Reader.data.eq_def, encBytes]
        rw [show pre ++ [2] ++ post = pre ++ 2 :: post from by simp]
        simp only [u8_read]
        simp
        rfl
    | int m =>
      rw [reprOK] at hr
      simp only [Bool.and_eq_true, decide_eq_true_eq] at hr
      rw [Reader.data.eq_def, encBytes]
      by_cases hm : 0 ≤ m
      · rw [if_pos hm]
        rw [show pre ++ (4 :: vuBytes (toUint32 m)) ++ post =
          pre ++ 4 :: (vuBytes (toUint32 m) ++ post) from by simp]
        have hvu := vu_read (m := toUint32 m) (toUint32_lt m) (pre ++ [4]) post
        rw [toInt32_toUint32_pos hm hr.2] at hvu
        simp only [List.append_assoc, List.singleton_append, List.cons_append, List.nil_append,
          List.length_append, List.length_cons, List.length_nil, Nat.zero_add,
          Nat.add_zero] at hvu ⊢
        simp only [u8_read, hvu]
        simp only [protoFx, Except.ok.injEq, Prod.mk.injEq, true_and]
        omega
      · rw [if_neg hm]
        rw [show pre ++ (5 :: vuBytes (toUint32 (-m))) ++ post =
          pre ++ 5 :: (vuBytes (toUint32 (-m)) ++ post) from by simp]
        have hvu := vu_read (m := toUint32 (-m)) (toUint32_lt (-m)) (pre ++ [5]) post
        rw [toInt32_toUint32_pos (by omega) (by omega)] at hvu
        simp only [List.append_assoc, List.singleton_append, List.cons_append, List.nil_append,
          List.length_append, List.length_cons, List.length_nil, Nat.zero_add,
          Nat.add_zero] at hvu ⊢
        simp only [u8_read, hvu]
        simp only [protoFx, neg_neg, Except.ok.injEq, Prod.mk.injEq, true_and]
        omega
    | float bits =>
      rw [reprOK] at hr
      simp only [Bool.and_eq_true, decide_eq_true_eq] at hr
      rw [Reader.data.eq_def, encBytes]
      rw [show pre ++ (6 :: leBytes 8 bits) ++ post =
        pre ++ 6 :: (leBytes 8 bits ++ post) from by simp]
      have hfl := float_read (b := bits) hr.1.1 (pre ++ [6]) post
      simp only [List.append_assoc, List.singleton_append, List.cons_append, List.nil_append,
        List.length_append, List.length_cons, List.length_nil, Nat.zero_add,
        Nat.add_zero] at hfl ⊢
      simp only [u8_read, hfl, bitsToNum_float hr.1.2 hr.2]
      simp only [protoFx, Except.ok.injEq, Prod.mk.injEq, true_and]
      rw [leBytes_length]
    | nan => rw [reprOK] at hr; simp at hr
    | infinity b => rw [reprOK] at hr; simp at hr
    | undef => rw [reprOK] at hr; simp at hr
    | str s =>
      rw [Reader.data.eq_def, encBytes]
      rw [show pre ++ (7 :: strBytes cfg s) ++ post =
        pre ++ 7 :: (strBytes cfg s ++ post) from by simp]
      have hks := string_read (c := cfg) (by rw [reprOK] at hr; exact hr) (pre ++ [7]) post
      simp only [List.append_assoc, List.singleton_append, List.cons_append, List.nil_append,
        List.length_append, List.length_cons, List.length_nil, Nat.zero_add,
        Nat.add_zero] at hks ⊢
      simp only [u8_read, hks]
      simp only [protoFx, Except.ok.injEq, Prod.mk.injEq, true_and]
      omega
    | arr xs =>
      rw [reprOK] at hr
      simp only [Bool.and_eq_true, decide_eq_true_eq] at hr
      have hx : ∀ x ∈ xs, ReadOK cfg x := by
        intro x hmem
        have hs : sizeOf x < sizeOf (OABDATA.arr xs) := by
          have := List.sizeOf_lt_of_mem hmem
          simp
          omega
        exact ih x (by omega) (reprListOK_mem hr.2 x hmem)
      have hcast : toUint32 ((xs.length : Nat) : Int) = xs.length :=
        toUint32_natCast_of_lt (by norm_num at hr ⊢; omega)
      have hfl : depthList xs ≤ f := by
        rw [depth.eq_def] at hfuel
        simp only at hfuel
        omega
      rw [Reader.data.eq_def, encBytes, hcast]
      rw [show pre ++ (8 :: (vuBytes xs.length ++ encList cfg xs)) ++ post =
        pre ++ 8 :: (vuBytes xs.length ++ (encList cfg xs ++ post)) from by simp]
      have hvu := vu_read (m := xs.length) (by norm_num at hr ⊢; omega) (pre ++ [8])
        (encList cfg xs ++ post)
      rw [toInt32_of_lt (by norm_num at hr ⊢; omega)] at hvu
      simp only [List.append_assoc, List.singleton_append, List.cons_append, List.nil_append,
        List.length_append, List.length_cons, List.length_nil, Nat.zero_add,
        Nat.add_zero] at hvu ⊢
      have hih := dataArrR_read cfg xs hx hr.2 [] (pre ++ 8 :: vuBytes xs.length) post f hfl
      simp only [List.append_assoc, List.singleton_append, List.cons_append, List.nil_append,
        List.length_append, List.length_cons, List.length_nil, Nat.zero_add,
        Nat.add_zero] at hih
      rw [show pre.length + ((vuBytes xs.length).length + 1) =
        pre.length + 1 + (vuBytes xs.length).length from by omega] at hih
      simp only [u8_read, hvu]
      rw [if_neg (by simp), Int.toNat_natCast, hih]
      simp only [protoFx, List.nil_append, Except.ok.injEq, Prod.mk.injEq, true_and]
      omega
    | obj kvs =>
      rw [reprOK] at hr
      simp only [Bool.and_eq_true, decide_eq_true_eq] at hr
      have hx : ∀ p ∈ kvs, ReadOK cfg p.2 := by
        intro p hmem
        have hs : sizeOf p.2 < sizeOf (OABDATA.obj kvs) := by
          have h1 := List.sizeOf_lt_of_mem hmem
          obtain ⟨a, b⟩ := p
          simp at h1 ⊢
          omega
        exact ih p.2 (by omega) (reprObjOK_mem hr.2 p hmem)
      have hcast : toUint32 ((kvs.length : Nat) : Int) = kvs.length :=
        toUint32_natCast_of_lt (by norm_num at hr ⊢; omega)
      have hfl : depthObj kvs ≤ f := by
        rw [depth.eq_def] at hfuel
        simp only at hfuel
        omega
      rw [Reader.data.eq_def, encBytes, hcast]
      rw [show pre ++ (9 :: (vuBytes kvs.length ++ encObj cfg kvs)) ++ post =
        pre ++ 9 :: (vuBytes kvs.length ++ (encObj cfg kvs ++ post)) from by simp]
      have hvu := vu_read (m := kvs.length) (by norm_num at hr ⊢; omega) (pre ++ [9])
        (encObj cfg kvs ++ post)
      rw [toInt32_of_lt (by norm_num at hr ⊢; omega)] at hvu
      simp only [List.append_assoc, List.singleton_append, List.cons_append, List.nil_append,
        List.length_append, List.length_cons, List.length_nil, Nat.zero_add,
        Nat.add_zero] at hvu ⊢
      have hih := dataObjR_read cfg hcfg kvs hx hr.2 hr.1.2 []
        (fun p hp => by simp at hp) (pre ++ 9 :: vuBytes kvs.length) post f hfl
      simp only [List.append_assoc, List.singleton_append, List.cons_append, List.nil_append,
        List.length_append, List.length_cons, List.length_nil, Nat.zero_add,
        Nat.add_zero] at hih
      rw [show pre.length + ((vuBytes kvs.length).length + 1) =
        pre.length + 1 + (vuBytes kvs.length).length from by omega] at hih
      simp only [u8_read, hvu]
      rw [Int.toNat_natCast, hih]
      simp only [protoFx, List.nil_append, Except.ok.injEq, Prod.mk.injEq, true_and]
      omega

theorem dataR_read {cfg : Cfg} {v : OABDATA} (hcfg : cfg.lookup.length ≤ 2 ^ 31)
    (hr : reprOK cfg.noUtf8 v = true) : ReadOK cfg v :=
  dataR_read_n cfg hcfg (sizeOf v) v le_rfl hr

/-- Whole-buffer round trip: `Reader.decode` run on exactly the bytes the
writer emits for a representable value recovers the value and consumes the
whole buffer. -/
theorem decode_enc {cfg : Cfg} {v : OABDATA} (hcfg : cfg.lookup.length ≤ 2 ^ 31)
    (hr : reprOK cfg.noUtf8 v = true) :
    Reader.decode cfg (encBytes cfg v) = .ok (v, (encBytes cfg v).length) := by
  have h := dataR_read hcfg hr [] [] ((encBytes cfg v).length + 1)
    (by have := depth_le_enc hr; omega)
  simp only [List.nil_append, List.append_nil, List.length_nil, Nat.zero_add] at h
  unfold Reader.decode
  rw [h]
  rfl


/-! ## Output monotonicity: no write path rewrites already-written output -/

/-- The output of `w2` extends the output of `w` (no capacity assumption:
this holds along every write path, even past a dropped store). -/
def Extends (w w2 : WState) : Prop :=
  ∃ tail, Writer.out w2 = Writer.out w ++ tail

theorem Extends.refl (w : WState) : Extends w w := ⟨[], by simp⟩

theorem Extends.extTrans {w1 w2 w3 : WState} (h1 : Extends w1 w2) (h2 : Extends w2 w3) :
    Extends w1 w3 := by
  obtain ⟨t1, e1⟩ := h1
  obtain ⟨t2, e2⟩ := h2
  exact ⟨t1 ++ t2, by rw [e2, e1, List.append_assoc]⟩

theorem ensure_extends (w : WState) (k : Nat) :
    Extends w (Writer.ensureCapacity w k) := by
  simp only [Writer.ensureCapacity]
  split
  · refine ⟨(List.replicate (2 * w.buffer.length ⊔ (w.pos + k) - w.buffer.length) 0).take
      (w.pos - w.buffer.length), ?_⟩
    simp only [Writer.out]
    rw [List.take_append_eq_append_take]
  · exact Extends.refl w

theorem storeByte_extends (w : WState) (b : Nat) :
    Extends w (Writer.storeByte w b) := by
  by_cases h : w.pos < w.buffer.length
  · exact ⟨[b % 256], (storeByte_emits b h).2.1⟩
  · refine ⟨(w.buffer[w.pos]?).toList, ?_⟩
    unfold Writer.storeByte Writer.out
    rw [if_neg h]
    exact List.take_succ

theorem storeList_extends : ∀ (bs : List Nat) (w : WState),
    Extends w (Writer.storeList w bs) := by
  intro bs
  induction bs with
  | nil => intro w; exact Extends.refl w
  | cons b t ih =>
    intro w
    have ht := ih (Writer.storeByte w b)
    rw [Writer.storeList] at ht ⊢
    rw [List.foldl_cons]
    exact (storeByte_extends w b).extTrans ht

theorem u8_extends (w : WState) (num : Nat) : Extends w (Writer.u8 w num) :=
  (ensure_extends w 1).extTrans (storeByte_extends _ _)

theorem vu_extends (w : WState) (num : Int) : Extends w (Writer.vu w num) := by
  unfold Writer.vu
  rw [vuLoop_eq_storeList 4 _ _ (by have := toUint32_lt num; norm_num at this ⊢; omega)]
  exact (ensure_extends w 5).extTrans (storeList_extends _ _)

theorem float_extends (w : WState) (bits : Nat) : Extends w (Writer.float w bits) := by
  unfold Writer.float
  exact (ensure_extends w 8).extTrans (storeList_extends _ _)

theorem string_extends (cfg : Cfg) (w : WState) (s : JsStr) :
    Extends w (Writer.string cfg w s) := by
  unfold Writer.string
  by_cases hn : cfg.noUtf8
  · simp only [hn, if_pos]
    rw [foldl_store_mask]
    exact ((vu_extends w _).extTrans (ensure_extends _ _)).extTrans (storeList_extends _ _)
  · simp only [hn, Bool.false_eq_true, if_false]
    rw [utf8WriteLoop_eq_storeList]
    exact ((vu_extends w _).extTrans (ensure_extends _ _)).extTrans (storeList_extends _ _)

theorem dataList_extends (cfg : Cfg) (xs : List OABDATA)
    (hx : ∀ x ∈ xs, ∀ w : WState, Extends w (Writer.data cfg w x).1) :
    ∀ w : WState, Extends w (Writer.dataList cfg w xs).1 := by
  induction xs with
  | nil => intro w; rw [Writer.dataList]; exact Extends.refl w
  | cons x t ih =>
    intro w
    rw [Writer.dataList]
    have h1 := hx x (by simp) w
    cases hd : Writer.data cfg w x with
    | mk w1 e =>
      rw [hd] at h1
      cases e with
      | none => exact h1.extTrans (ih (fun y hy => hx y (by simp [hy])) w1)
      | some er => exact h1

theorem dataObj_extends (cfg : Cfg) (kvs : List (JsStr × OABDATA))
    (hx : ∀ p ∈ kvs, ∀ w : WState, Extends w (Writer.data cfg w p.2).1) :
    ∀ w : WState, Extends w (Writer.dataObj cfg w kvs).1 := by
  induction kvs with
  | nil => intro w; rw [Writer.dataObj]; exact Extends.refl w
  | cons p t ih =>
    obtain ⟨k, v⟩ := p
    intro w
    rw [Writer.dataObj]
    have hkey : Extends w (match invLookup cfg.lookup k with
        | some i => Writer.vu (Writer.u8 w 2) (i : Int)
        | none =>
          if objectProtoKeys.contains k then Writer.vu (Writer.u8 w 2) 0
          else Writer.string cfg (Writer.u8 w 1) k) := by
      cases hk : invLookup cfg.lookup k with
      | none =>
        by_cases hc : objectProtoKeys.contains k
        · simp only [hc, if_true]
          exact (u8_extends w 2).extTrans (vu_extends _ _)
        · simp only [hc, Bool.false_eq_true, if_false]
          exact (u8_extends w 1).extTrans (string_extends cfg _ k)
      | some i => exact (u8_extends w 2).extTrans (vu_extends _ _)
    set w1 := (match invLookup cfg.lookup k with
        | some i => Writer.vu (Writer.u8 w 2) (i : Int)
        | none =>
          if objectProtoKeys.contains k then Writer.vu (Writer.u8 w 2) 0
          else Writer.string cfg (Writer.u8 w 1) k) with hw1
    have h1 := hx (k, v) (by simp) w1
    cases hd : Writer.data cfg w1 v with
    | mk w2 e =>
      rw [hd] at h1
      cases e with
      | none => exact (hkey.extTrans h1).extTrans (ih (fun q hq => hx q (by simp [hq])) w2)
      | some er => exact hkey.extTrans h1

theorem data_extends_n (n : Nat) : ∀ v : OABDATA, sizeOf v ≤ n →
    ∀ (cfg : Cfg) (w : WState), Extends w (Writer.data cfg w v).1 := by
  induction n with
  | zero =>
    intro v hv
    exfalso
    cases v <;> simp at hv
  | succ n ih =>
    intro v hv cfg w
    cases v with
    | null => rw [Writer.data]; exact u8_extends w 3
    | bool b => cases b <;> (rw [Writer.data]; exact u8_extends w _)
    | int m =>
      rw [Writer.data]
      split
      · exact (u8_extends w 4).extTrans (vu_extends _ _)
      · exact (u8_extends w 5).extTrans (vu_extends _ _)
    | float bits =>
      rw [Writer.data]
      exact (u8_extends w 6).extTrans (float_extends _ _)
    | nan => rw [Writer.data]; exact Extends.refl w
    | infinity b => rw [Writer.data]; exact Extends.refl w
    | undef => rw [Writer.data]; exact Extends.refl w
    | str s =>
      rw [Writer.data]
      exact (u8_extends w 7).extTrans (string_extends cfg _ s)
    | arr xs =>
      rw [Writer.data]
      refine ((u8_extends w 8).extTrans (vu_extends _ _)).extTrans
        (dataList_extends cfg xs (fun x hmem w2 => ?_) _)
      have hs : sizeOf x < sizeOf (OABDATA.arr xs) := by
        have := List.sizeOf_lt_of_mem hmem
        simp
        omega
      exact ih x (by omega) cfg w2
    | obj kvs =>
      rw [Writer.data]
      refine ((u8_extends w 9).extTrans (vu_extends _ _)).extTrans
        (dataObj_extends cfg kvs (fun p hmem w2 => ?_) _)
      have hs : sizeOf p.2 < sizeOf (OABDATA.obj kvs) := by
        have h1 := List.sizeOf_lt_of_mem hmem
        obtain ⟨a, b⟩ := p
        simp at h1 ⊢
        omega
      exact ih p.2 (by omega) cfg w2

theorem data_extends (cfg : Cfg) (w : WState) (v : OABDATA) :
    Extends w (Writer.data cfg w v).1 :=
  data_extends_n (sizeOf v) v le_rfl cfg w


/-- `Reader.string` in `noUtf8` mode on the writer's `noUtf8` output: the
decoded units are the low 8 bits of the original units (no hypothesis that
the string was 8-bit clean). -/
theorem string_read_raw {c : Cfg} (hn : c.noUtf8 = true) {s : JsStr}
    (hlen : s.length < 2 ^ 31) (pre post : List Nat) :
    Reader.string c (pre ++ strBytes c s ++ post) pre.length =
      .ok (s.map (fun c => c &&& 0xFF), pre.length + (strBytes c s).length) := by
  have hsb : strBytes c s = vuBytes (toUint32 (s.length : Int)) ++
      s.map (fun c => c &&& 0xFF) := by
    unfold strBytes
    rw [hn]
    simp
  have hcast : toUint32 (s.length : Int) = s.length :=
    toUint32_natCast_of_lt (by norm_num at hlen ⊢; omega)
  rw [hsb, hcast]
  unfold Reader.string
  rw [hn]
  simp only [if_true]
  have hvu := vu_read (m := s.length) (by norm_num at hlen ⊢; omega) pre
    (s.map (fun c => c &&& 0xFF) ++ post)
  rw [show pre ++ (vuBytes s.length ++ s.map (fun c => c &&& 0xFF)) ++ post =
    pre ++ vuBytes s.length ++ (s.map (fun c => c &&& 0xFF) ++ post) from by simp]
  rw [hvu]
  rw [toInt32_of_lt (by norm_num at hlen ⊢; omega)]
  dsimp only
  rw [if_neg (by push_cast; simp; omega)]
  have hraw := rawLoop_read (s.map (fun c => c &&& 0xFF)) (pre ++ vuBytes s.length) post
  simp only [List.length_map] at hraw
  simp only [List.append_assoc, List.length_append] at hraw ⊢
  rw [Int.toNat_natCast, hraw]
  simp [Nat.add_assoc]

theorem map_and255_eq_self {s : List Nat} :
    s.map (fun c => c &&& 0xFF) = s ↔ ∀ c ∈ s, c ≤ 0xFF := by
  induction s with
  | nil => simp
  | cons c t ih =>
    simp only [List.map_cons, List.cons.injEq, List.mem_cons]
    constructor
    · rintro ⟨h1, h2⟩ u hu
      rcases hu with rfl | hu
      · rw [and255_eq_mod] at h1
        omega
      · exact ih.1 h2 u hu
    · intro h
      refine ⟨?_, ih.2 (fun u hu => h u (Or.inr hu))⟩
      have := h c (Or.inl rfl)
      rw [and255_eq_mod]
      omega


/-- The full output of `Writer.data` on a one-entry map, with the key bytes
given by the three-way key branch of `Writer.dataObj` (shared support for the
C7 theorems). -/
theorem dataObj_single (cfg : Cfg) (w : WState) (k : JsStr) (v : OABDATA) (hw : WF w)
    (hk : strOKb cfg.noUtf8 k = true) (hv : reprOK cfg.noUtf8 v = true) :
    (Writer.data cfg w (OABDATA.obj [(k, v)])).2 = none ∧
    Writer.out (Writer.data cfg w (OABDATA.obj [(k, v)])).1 =
      Writer.out w ++ 9 :: vuBytes (toUint32 ((1 : Nat) : Int)) ++
        (match invLookup cfg.lookup k with
         | some i => 2 :: vuBytes (toUint32 (i : Int))
         | none =>
           if objectProtoKeys.contains k then 2 :: vuBytes (toUint32 0)
           else 1 :: strBytes cfg k) ++ encBytes cfg v := by
  have h9 := u8_emits_lt (w := w) (n := 9) hw (by norm_num)
  have hcnt := vu_emits (w := Writer.u8 w 9) ((1 : Nat) : Int) h9.1
  have hW1 := h9.trans hcnt
  rw [Writer.data]
  rw [show (([(k, v)] : List (JsStr × OABDATA)).length : Int) = ((1 : Nat) : Int) from by
    norm_num]
  rw [Writer.dataObj]
  cases hki : invLookup cfg.lookup k with
  | some i =>
    simp only [hki]
    have h1 := u8_emits_lt (w := Writer.vu (Writer.u8 w 9) ((1 : Nat) : Int)) (n := 2)
      hW1.1 (by norm_num)
    have h2 := vu_emits (w := Writer.u8 (Writer.vu (Writer.u8 w 9) ((1 : Nat) : Int)) 2)
      ((i : Nat) : Int) h1.1
    have hall := hW1.trans (h1.trans h2)
    obtain ⟨hnone, hemit⟩ := data_emits (c := cfg) hall.1 hv
    have hsplit : Writer.data cfg
        (Writer.vu (Writer.u8 (Writer.vu (Writer.u8 w 9) ((1 : Nat) : Int)) 2) ((i : Nat) : Int)) v =
        ((Writer.data cfg
          (Writer.vu (Writer.u8 (Writer.vu (Writer.u8 w 9) ((1 : Nat) : Int)) 2) ((i : Nat) : Int)) v).1,
          none) := by
      rw [← hnone]
    rw [hsplit]
    dsimp only
    rw [Writer.dataObj]
    refine ⟨rfl, ?_⟩
    have hfin := hall.trans hemit
    rw [hfin.2.1]
    simp
  | none =>
    cases hc : objectProtoKeys.contains k
    case true =>
      simp only [hki, hc, if_true]
      have h1 := u8_emits_lt (w := Writer.vu (Writer.u8 w 9) ((1 : Nat) : Int)) (n := 2)
        hW1.1 (by norm_num)
      have h2 := vu_emits (w := Writer.u8 (Writer.vu (Writer.u8 w 9) ((1 : Nat) : Int)) 2)
        (0 : Int) h1.1
      have hall := hW1.trans (h1.trans h2)
      obtain ⟨hnone, hemit⟩ := data_emits (c := cfg) hall.1 hv
      have hsplit : Writer.data cfg
          (Writer.vu (Writer.u8 (Writer.vu (Writer.u8 w 9) ((1 : Nat) : Int)) 2) 0) v =
          ((Writer.data cfg
            (Writer.vu (Writer.u8 (Writer.vu (Writer.u8 w 9) ((1 : Nat) : Int)) 2) 0) v).1,
            none) := by
        rw [← hnone]
      rw [hsplit]
      dsimp only
      rw [Writer.dataObj]
      refine ⟨rfl, ?_⟩
      have hfin := hall.trans hemit
      rw [hfin.2.1]
      simp
    case false =>
      simp only [hki, hc, Bool.false_eq_true, if_false]
      have h1 := u8_emits_lt (w := Writer.vu (Writer.u8 w 9) ((1 : Nat) : Int)) (n := 1)
        hW1.1 (by norm_num)
      have h2 := string_emits (c := cfg)
        (w := Writer.u8 (Writer.vu (Writer.u8 w 9) ((1 : Nat) : Int)) 1) h1.1
        (strOKb_unitsOK hk)
      have hall := hW1.trans (h1.trans h2)
      obtain ⟨hnone, hemit⟩ := data_emits (c := cfg) hall.1 hv
      have hsplit : Writer.data cfg
          (Writer.string cfg (Writer.u8 (Writer.vu (Writer.u8 w 9) ((1 : Nat) : Int)) 1) k) v =
          ((Writer.data cfg
            (Writer.string cfg (Writer.u8 (Writer.vu (Writer.u8 w 9) ((1 : Nat) : Int)) 1) k) v).1,
            none) := by
        rw [← hnone]
      rw [hsplit]
      dsimp only
      rw [Writer.dataObj]
      refine ⟨rfl, ?_⟩
      have hfin := hall.trans hemit
      rw [hfin.2.1]
      simp


/-! ## The claims -/

/-- C1 (amended): the claimed round trip `decode (encode v) = v` holds for
representable values, where two narrowings of the claim are forced by the
code.  First, "finite integers within the 32-bit magnitude budget" must be
narrowed to magnitude below `2 ^ 31`: the varint codec casts through the
unsigned 32-bit range on encode and reinterprets the pattern as a signed
32-bit integer on decode, so integers in `[2 ^ 31, 2 ^ 32)` (accepted by the
writer) come back negated.  Second, map keys must not be named like
`Object.prototype` members (`toString`, `constructor`, `__proto__`, …): for
such a key the writer's plain-object dictionary lookup finds the inherited
member and emits key-tag 2 + varint 0, so the decode aborts with the
key-reference error (or resolves a wrong key).  Both failures are in the
counterexample.  For every representable value, with identical
`lookup` / `noUtf8` configuration on both sides, `Writer.data` on a fresh
writer succeeds and `Reader.data` on its output returns a structurally equal
value (insertion order of map entries preserved), consuming the whole
output. -/
theorem C1_roundtrip (cfg : Cfg) (cap : Nat) (v : OABDATA)
    (hcfg : cfg.lookup.length ≤ 2 ^ 31) (hr : reprOK cfg.noUtf8 v = true) :
    (Writer.data cfg (Writer.mk0 cap) v).2 = none ∧
    Reader.decode cfg (Writer.out (Writer.data cfg (Writer.mk0 cap) v).1) =
      .ok (v, (Writer.out (Writer.data cfg (Writer.mk0 cap) v).1).length) := by
  have hwf : WF (Writer.mk0 cap) := by
    unfold WF Writer.mk0
    simp
  obtain ⟨hnone, hemit⟩ := data_emits (c := cfg) (w := Writer.mk0 cap) (v := v) hwf hr
  have hout : Writer.out (Writer.data cfg (Writer.mk0 cap) v).1 = encBytes cfg v := by
    rw [hemit.2.1]
    simp [Writer.out, Writer.mk0]
  rw [hout]
  exact ⟨hnone, decode_enc hcfg hr⟩

/-- C1 witness: a concrete nested value (an array of an integer and `null`,
a string, and a one-entry map) round-trips through a fresh 4-byte writer. -/
theorem C1_roundtrip_witness :
    ((⟨[], false⟩ : Cfg).lookup.length ≤ 2 ^ 31 ∧
      reprOK (⟨[], false⟩ : Cfg).noUtf8
        (OABDATA.obj [([104, 105], OABDATA.arr [OABDATA.int 5, OABDATA.null])]) = true) ∧
    ((Writer.data ⟨[], false⟩ (Writer.mk0 4)
        (OABDATA.obj [([104, 105], OABDATA.arr [OABDATA.int 5, OABDATA.null])])).2 = none ∧
      Reader.decode ⟨[], false⟩ (Writer.out (Writer.data ⟨[], false⟩ (Writer.mk0 4)
          (OABDATA.obj [([104, 105], OABDATA.arr [OABDATA.int 5, OABDATA.null])])).1) =
        .ok (OABDATA.obj [([104, 105], OABDATA.arr [OABDATA.int 5, OABDATA.null])],
          (Writer.out (Writer.data ⟨[], false⟩ (Writer.mk0 4)
            (OABDATA.obj [([104, 105], OABDATA.arr [OABDATA.int 5, OABDATA.null])])).1).length)) :=
  ⟨⟨by norm_num,
      by norm_num [reprOK, reprListOK, reprObjOK, nodupKeys, strOKb, wfUnits, utf8Len]; decide⟩,
    C1_roundtrip ⟨[], false⟩ 4 _ (by norm_num)
      (by norm_num [reprOK, reprListOK, reprObjOK, nodupKeys, strOKb, wfUnits, utf8Len]; decide)⟩

/-- C1 counterexample.  (1) `2 ^ 31` is a finite integer within the 32-bit
magnitude budget, the writer accepts it (tag 4 + varint of the unsigned
cast), but the decode returns `-2 ^ 31`: the round trip fails on it.
(2) The one-entry map with key "toString" (a distinct-string-keyed map) is
accepted by the writer, but its key goes out as key-tag 2 + varint 0 (the
inherited `Object.prototype.toString` is not `undefined`, and `>>> 0` casts
it to 0), so decoding with the same empty dictionary aborts with the
key-reference error instead of returning the map. -/
theorem C1_counterexample :
    ((Writer.data ⟨[], false⟩ (Writer.mk0 8) (OABDATA.int (2 ^ 31))).2 = none ∧
      Reader.decode ⟨[], false⟩
          (Writer.out (Writer.data ⟨[], false⟩ (Writer.mk0 8) (OABDATA.int (2 ^ 31))).1) =
        .ok (OABDATA.int (-(2 ^ 31)), 6) ∧
      OABDATA.int (-(2 ^ 31)) ≠ OABDATA.int (2 ^ 31)) ∧
    ((Writer.data ⟨[], true⟩ (Writer.mk0 8)
        (OABDATA.obj [([116, 111, 83, 116, 114, 105, 110, 103], OABDATA.int 5)])).2 = none ∧
      Reader.decode ⟨[], true⟩ (Writer.out (Writer.data ⟨[], true⟩ (Writer.mk0 8)
          (OABDATA.obj [([116, 111, 83, 116, 114, 105, 110, 103], OABDATA.int 5)])).1) =
        .error .badKeyRef) := by
  constructor
  case _ =>
    have hwf : WF (Writer.mk0 8) := by unfold WF Writer.mk0; simp
    have hd : Writer.data (⟨[], false⟩ : Cfg) (Writer.mk0 8) (OABDATA.int (2 ^ 31)) =
        (Writer.vu (Writer.u8 (Writer.mk0 8) 4) (2 ^ 31), none) := by
      rw [Writer.data, if_pos (by norm_num)]
    have h1 := u8_emits_lt (w := Writer.mk0 8) (n := 4) hwf (by norm_num)
    have h2 := vu_emits (w := Writer.u8 (Writer.mk0 8) 4) (2 ^ 31) h1.1
    have hcast : toUint32 ((2 : Int) ^ 31) = 2 ^ 31 := by
      unfold toUint32
      norm_num
      rfl
    have hout : Writer.out (Writer.vu (Writer.u8 (Writer.mk0 8) 4) (2 ^ 31)) =
        4 :: vuBytes (2 ^ 31) := by
      rw [h2.2.1, h1.2.1, hcast]
      simp [Writer.out, Writer.mk0]
    refine ⟨by rw [hd], ?_, by simp only [ne_eq, OABDATA.int.injEq]; norm_num⟩
    rw [hd]
    simp only
    rw [hout]
    have hu8 := u8_read [] 4 (vuBytes (2 ^ 31))
    simp only [List.nil_append, List.length_nil] at hu8
    have hvu := vu_read (m := 2 ^ 31) (by norm_num) [4] []
    rw [show toInt32 (2 ^ 31) = -(2 ^ 31) from by unfold toInt32; norm_num] at hvu
    simp only [List.append_nil, List.singleton_append, List.length_cons,
      List.length_nil, Nat.zero_add] at hvu
    unfold Reader.decode
    rw [Reader.data.eq_def]
    simp only [hu8, hvu]
    have hvb : vuBytes (2 ^ 31) = [128, 128, 128, 128, 8] := by decide
    rw [hvb]
    simp [Except.map]
  case _ =>
    obtain ⟨hnone, hout⟩ := dataObj_single ⟨[], true⟩ (Writer.mk0 8)
      [116, 111, 83, 116, 114, 105, 110, 103] (OABDATA.int 5)
      (by decide) (by decide) (by norm_num [reprOK])
    refine ⟨hnone, ?_⟩
    have henc : encBytes (⟨[], true⟩ : Cfg) (OABDATA.int 5) = [4, 5] := by
      rw [encBytes, if_pos (by norm_num)]
      decide
    have houtc : Writer.out (Writer.data ⟨[], true⟩ (Writer.mk0 8)
        (OABDATA.obj [([116, 111, 83, 116, 114, 105, 110, 103], OABDATA.int 5)])).1 =
        [9, 1, 2, 0, 4, 5] := by
      rw [hout, henc]
      simp only [show invLookup [] [116, 111, 83, 116, 114, 105, 110, 103] = none from by decide,
        show objectProtoKeys.contains [116, 111, 83, 116, 114, 105, 110, 103] = true from by
          decide, if_true]
      decide
    rw [houtc]
    unfold Reader.decode
    rw [Reader.data.eq_def]
    have hu8 := u8_read [] 9 [1, 2, 0, 4, 5]
    simp only [List.nil_append, List.length_nil] at hu8
    have hvu1 := vu_read (m := 1) (by norm_num) [9] [2, 0, 4, 5]
    rw [show vuBytes 1 = [1] from rfl] at hvu1
    rw [show toInt32 1 = 1 from by unfold toInt32; norm_num] at hvu1
    simp only [List.append_assoc, List.singleton_append, List.cons_append,
      List.nil_append, List.length_cons, List.length_nil, Nat.zero_add] at hu8 hvu1 ⊢
    simp only [hu8, hvu1]
    rw [show Int.toNat 1 = 1 from rfl]
    rw [Reader.dataObj.eq_def]
    have hkey : (9 :: 1 :: 2 :: 0 :: 4 :: 5 :: ([] : List Nat))[2]? = some 2 := by simp
    simp only [hkey]
    have hvu2 := vu_read (m := 0) (by norm_num) [9, 1, 2] [4, 5]
    rw [show vuBytes 0 = [0] from rfl] at hvu2
    rw [show toInt32 0 = 0 from by unfold toInt32; norm_num] at hvu2
    simp only [List.append_assoc, List.singleton_append, List.cons_append,
      List.nil_append, List.length_cons, List.length_nil, Nat.zero_add] at hvu2
    simp only [hvu2]
    have hlook : lookupAt ([] : List JsStr) 0 = none := by decide
    simp only [hlook]
    rfl


/-- C2 (amended): decoding a buffer truncated mid-payload raises
`outOfBounds` for the checked reads — here the spec's own example, a float
tag with fewer than 8 trailing bytes — but the universal "every read is
bounds-checked" part of the claim is false: the map key-tag byte is read
unchecked (see the counterexample). -/
theorem C2_truncated_float (cfg : Cfg) (rest : List Nat) (h : rest.length < 8) :
    Reader.decode cfg (6 :: rest) = .error .outOfBounds := by
  unfold Reader.decode
  rw [Reader.data.eq_def]
  have hu8 := u8_read [] 6 rest
  simp only [List.nil_append, List.length_nil] at hu8
  have hf : Reader.float (6 :: rest) 1 = .error .outOfBounds := by
    unfold Reader.float
    rw [if_pos (by simp; omega)]
  simp only [hu8, hf]
  rfl

/-- C2 witness: a lone float tag (7 missing payload bytes) decodes to
`outOfBounds`. -/
theorem C2_truncated_float_witness :
    ([] : List Nat).length < 8 ∧
      Reader.decode ⟨[], false⟩ (6 :: []) = .error .outOfBounds :=
  ⟨by norm_num, C2_truncated_float ⟨[], false⟩ [] (by norm_num)⟩

/-- C2 counterexample: decoding `[9, 1]` (a one-entry map truncated before
the key tag) reads the key-tag byte with an unchecked `this.buffer[this.at++]`
access past the buffer end (index 2 of a 2-byte buffer) and raises the
"Unknown byte" error, not `outOfBounds`: not every read is bounds-checked and
a truncated buffer does not always raise `outOfBounds`. -/
theorem C2_counterexample :
    Reader.decode ⟨[], false⟩ [9, 1] = .error .unknownByte ∧
      RErr.unknownByte ≠ RErr.outOfBounds := by
  refine ⟨?_, by decide⟩
  unfold Reader.decode
  rw [Reader.data.eq_def]
  have hu8 := u8_read [] 9 [1]
  simp only [List.nil_append, List.length_nil] at hu8
  have hvu := vu_read (m := 1) (by norm_num) [9] []
  rw [show vuBytes 1 = [1] from rfl] at hvu
  rw [show toInt32 1 = 1 from by unfold toInt32; norm_num] at hvu
  simp only [List.append_nil, List.singleton_append, List.length_cons,
    List.length_nil, Nat.zero_add] at hvu
  simp only [hu8, hvu]
  rw [show Int.toNat 1 = 1 from rfl]
  rw [Reader.dataObj.eq_def]
  simp [Except.map]


/-- C3 (amended): the varint boundary values 0, 127, 128, 16383, 16384 and
`2 ^ 31 - 1` round-trip through `Writer.vu` then `Reader.vu`; the seventh
claimed boundary, `2 ^ 32 - 1` (the top of the unsigned cast range), does
NOT return the same value: the decoder's JS `|=` accumulator makes the
result a signed 32-bit integer, so it returns `-1` (see the
counterexample). -/
theorem C3_boundaries (n : Int)
    (h : n = 0 ∨ n = 127 ∨ n = 128 ∨ n = 16383 ∨ n = 16384 ∨ n = 2 ^ 31 - 1) :
    Reader.vu (Writer.out (Writer.vu (Writer.mk0 5) n)) 0 =
      .ok (n, (Writer.out (Writer.vu (Writer.mk0 5) n)).length) := by
  have hwf : WF (Writer.mk0 5) := by unfold WF Writer.mk0; simp
  have he := vu_emits (w := Writer.mk0 5) n hwf
  have hout : Writer.out (Writer.vu (Writer.mk0 5) n) = vuBytes (toUint32 n) := by
    rw [he.2.1]
    simp [Writer.out, Writer.mk0]
  have h31 : 0 ≤ n ∧ n < 2 ^ 31 := by rcases h with rfl|rfl|rfl|rfl|rfl|rfl <;> norm_num
  have hvr := vu_read (m := toUint32 n) (toUint32_lt n) [] []
  simp only [List.nil_append, List.append_nil, List.length_nil, Nat.zero_add] at hvr
  rw [hout, hvr, toInt32_toUint32_pos h31.1 h31.2]

/-- C3 witness: the boundary 16384 (the first 3-byte varint) round-trips. -/
theorem C3_boundaries_witness :
    ((16384 : Int) = 0 ∨ (16384 : Int) = 127 ∨ (16384 : Int) = 128 ∨
      (16384 : Int) = 16383 ∨ (16384 : Int) = 16384 ∨ (16384 : Int) = 2 ^ 31 - 1) ∧
    Reader.vu (Writer.out (Writer.vu (Writer.mk0 5) 16384)) 0 =
      .ok (16384, (Writer.out (Writer.vu (Writer.mk0 5) 16384)).length) :=
  ⟨by norm_num, C3_boundaries 16384 (by norm_num)⟩

/-- C3 counterexample: `2 ^ 32 - 1` (already in the unsigned 32-bit range, so
the cast leaves it unchanged) comes back from the round trip as `-1`, not
`2 ^ 32 - 1`. -/
theorem C3_counterexample :
    Reader.vu (Writer.out (Writer.vu (Writer.mk0 5) (2 ^ 32 - 1))) 0 =
      .ok (-1, (Writer.out (Writer.vu (Writer.mk0 5) (2 ^ 32 - 1))).length) ∧
    (-1 : Int) ≠ 2 ^ 32 - 1 := by
  refine ⟨?_, by norm_num⟩
  have hwf : WF (Writer.mk0 5) := by unfold WF Writer.mk0; simp
  have he := vu_emits (w := Writer.mk0 5) (2 ^ 32 - 1) hwf
  have hout : Writer.out (Writer.vu (Writer.mk0 5) (2 ^ 32 - 1)) =
      vuBytes (toUint32 (2 ^ 32 - 1)) := by
    rw [he.2.1]
    simp [Writer.out, Writer.mk0]
  have hvr := vu_read (m := toUint32 (2 ^ 32 - 1)) (toUint32_lt _) [] []
  simp only [List.nil_append, List.append_nil, List.length_nil, Nat.zero_add] at hvr
  rw [hout, hvr]
  rw [show toInt32 (toUint32 (2 ^ 32 - 1)) = -1 from by
    unfold toUint32 toInt32
    split <;> omega]

/-- C4 (amended): the zigzag codec `Writer.vi` / `Reader.vi` round-trips every
integer of magnitude below `2 ^ 30` (hence the claimed values 0, 1 and −1),
but NOT the claimed extremes `2 ^ 31 - 1` and `-2 ^ 31`: the JS `<< 1` in the
encoder overflows the signed 32-bit range on both (see the counterexample). -/
theorem C4_zigzag (n : Int) (h1 : -(2 ^ 30) ≤ n) (h2 : n < 2 ^ 30) :
    Reader.vi (Writer.out (Writer.vi (Writer.mk0 5) n)) 0 =
      .ok (n, (Writer.out (Writer.vi (Writer.mk0 5) n)).length) := by
  have hwf : WF (Writer.mk0 5) := by unfold WF Writer.mk0; simp
  have hshl : jsShl1 n = 2 * n := by
    unfold jsShl1 toInt32 toUint32
    split <;> omega
  set e : Int := if n < 0 then -(jsShl1 n) - 1 else jsShl1 n with hedef
  have he31 : 0 ≤ e ∧ e < 2 ^ 31 := by
    rw [hedef, hshl]
    split <;> omega
  have hvi : Writer.vi (Writer.mk0 5) n = Writer.vu (Writer.mk0 5) e := by
    rw [Writer.vi]
  have hem := vu_emits (w := Writer.mk0 5) e hwf
  have hout : Writer.out (Writer.vu (Writer.mk0 5) e) = vuBytes (toUint32 e) := by
    rw [hem.2.1]
    simp [Writer.out, Writer.mk0]
  have hvr := vu_read (m := toUint32 e) (toUint32_lt e) [] []
  simp only [List.nil_append, List.append_nil, List.length_nil, Nat.zero_add] at hvr
  rw [hvi, hout]
  unfold Reader.vi
  rw [show Reader.vu (vuBytes (toUint32 e)) 0 =
    .ok (toInt32 (toUint32 e), (vuBytes (toUint32 e)).length) from hvr]
  rw [toInt32_toUint32_pos he31.1 he31.2]
  simp only [Except.map]
  by_cases hn : n < 0
  · have hee : e = -(2 * n) - 1 := by rw [hedef, if_pos hn, hshl]
    rw [if_pos (by omega)]
    rw [Int.fdiv_eq_ediv _ (by norm_num)]
    simp only [Except.ok.injEq, Prod.mk.injEq, and_true]
    omega
  · have hee : e = 2 * n := by rw [hedef, if_neg hn, hshl]
    rw [if_neg (by omega)]
    rw [Int.fdiv_eq_ediv _ (by norm_num)]
    simp only [Except.ok.injEq, Prod.mk.injEq, and_true]
    omega

/-- C4 witness: −1 (and with it the zigzag odd branch) round-trips. -/
theorem C4_zigzag_witness :
    (-(2 ^ 30) ≤ (-1 : Int) ∧ (-1 : Int) < 2 ^ 30) ∧
    Reader.vi (Writer.out (Writer.vi (Writer.mk0 5) (-1))) 0 =
      .ok (-1, (Writer.out (Writer.vi (Writer.mk0 5) (-1))).length) :=
  ⟨⟨by norm_num, by norm_num⟩, C4_zigzag (-1) (by norm_num) (by norm_num)⟩

/-- C4 counterexample: the claimed extremes fail.  `-2 ^ 31` encodes through
the overflowing JS `<< 1` to the varint of `2 ^ 32 - 1` and decodes to `0`;
`2 ^ 31 - 1` encodes to the varint of `2 ^ 32 - 2` and decodes to `-1`. -/
theorem C4_counterexample :
    (Reader.vi (Writer.out (Writer.vi (Writer.mk0 5) (-(2 ^ 31)))) 0 =
        .ok (0, (Writer.out (Writer.vi (Writer.mk0 5) (-(2 ^ 31)))).length) ∧
      (0 : Int) ≠ -(2 ^ 31)) ∧
    (Reader.vi (Writer.out (Writer.vi (Writer.mk0 5) (2 ^ 31 - 1))) 0 =
        .ok (-1, (Writer.out (Writer.vi (Writer.mk0 5) (2 ^ 31 - 1))).length) ∧
      (-1 : Int) ≠ 2 ^ 31 - 1) := by
  have hwf : WF (Writer.mk0 5) := by unfold WF Writer.mk0; simp
  constructor
  · refine ⟨?_, by norm_num⟩
    have hvi : Writer.vi (Writer.mk0 5) (-(2 ^ 31)) = Writer.vu (Writer.mk0 5) (-1) := by
      rw [Writer.vi, if_pos (by norm_num)]
      rw [show jsShl1 (-(2 ^ 31)) = 0 from by unfold jsShl1 toUint32 toInt32; split <;> omega]
      norm_num
    have hem := vu_emits (w := Writer.mk0 5) (-1) hwf
    have hout : Writer.out (Writer.vu (Writer.mk0 5) (-1)) = vuBytes (toUint32 (-1)) := by
      rw [hem.2.1]
      simp [Writer.out, Writer.mk0]
    have hvr := vu_read (m := toUint32 (-1)) (toUint32_lt _) [] []
    simp only [List.nil_append, List.append_nil, List.length_nil, Nat.zero_add] at hvr
    rw [hvi, hout]
    unfold Reader.vi
    rw [show Reader.vu (vuBytes (toUint32 (-1))) 0 =
      .ok (toInt32 (toUint32 (-1)), (vuBytes (toUint32 (-1))).length) from hvr]
    rw [show toInt32 (toUint32 (-1)) = -1 from by unfold toUint32 toInt32; split <;> omega]
    simp only [Except.map]
    rw [if_pos (by decide)]
    rw [show Int.fdiv (-1) 2 = -1 from by decide]
    norm_num
  · refine ⟨?_, by norm_num⟩
    have hvi : Writer.vi (Writer.mk0 5) (2 ^ 31 - 1) = Writer.vu (Writer.mk0 5) (-2) := by
      rw [Writer.vi, if_neg (by norm_num)]
      rw [show jsShl1 (2 ^ 31 - 1) = -2 from by unfold jsShl1 toUint32 toInt32; split <;> omega]
    have hem := vu_emits (w := Writer.mk0 5) (-2) hwf
    have hout : Writer.out (Writer.vu (Writer.mk0 5) (-2)) = vuBytes (toUint32 (-2)) := by
      rw [hem.2.1]
      simp [Writer.out, Writer.mk0]
    have hvr := vu_read (m := toUint32 (-2)) (toUint32_lt _) [] []
    simp only [List.nil_append, List.append_nil, List.length_nil, Nat.zero_add] at hvr
    rw [hvi, hout]
    unfold Reader.vi
    rw [show Reader.vu (vuBytes (toUint32 (-2))) 0 =
      .ok (toInt32 (toUint32 (-2)), (vuBytes (toUint32 (-2))).length) from hvr]
    rw [show toInt32 (toUint32 (-2)) = -2 from by unfold toUint32 toInt32; split <;> omega]
    simp only [Except.map]
    rw [if_neg (by decide)]
    rw [show Int.fdiv (-2) 2 = -1 from by decide]


/-- C5 (amended): the unsigned varint decoder has NO 5-byte accumulation cap
and no `MalformedVarint` error (the reader's error set `RErr` has no such
constructor because the source throws no such error): on a buffer of nothing
but continuation bytes it consumes the entire buffer, however long, and then
fails with the bounds check (`outOfBounds`) of the next byte read.  Decode
work on corrupt input is therefore bounded only by the buffer length; the
counterexample shows a varint of 7 bytes being accepted. -/
theorem C5_no_cap (k : Nat) :
    Reader.vu (List.replicate k 128) 0 = .error .outOfBounds := by
  have main : ∀ (m pos out shift : Nat), pos + m = k →
      Reader.vuLoop (List.replicate k 128) pos out shift = .error .outOfBounds := by
    intro m
    induction m with
    | zero =>
      intro pos out shift hpk
      rw [Reader.vuLoop]
      rw [if_neg (by simp; omega)]
    | succ m ih =>
      intro pos out shift hpk
      rw [Reader.vuLoop]
      rw [if_pos (by simp; omega)]
      have hb : readAt (List.replicate k 128) pos = 128 := by
        unfold readAt
        rw [List.getD_eq_getElem?_getD, List.getElem?_replicate, if_pos (by omega)]
        rfl
      simp only [hb]
      rw [if_pos (by decide)]
      exact ih (pos + 1) _ _ (by omega)
  unfold Reader.vu
  rw [main k 0 0 0 (by omega)]
  rfl

/-- C5 counterexample: a 7-byte varint (six continuation bytes, then a
terminator) is decoded without any error — the decoder accumulated past the
claimed 5-byte cap and consumed 7 bytes of input. -/
theorem C5_counterexample :
    Reader.vu [128, 128, 128, 128, 128, 128, 0] 0 = .ok (0, 7) := by
  unfold Reader.vu
  rw [Reader.vuLoop]
  rw [if_pos (by norm_num), if_pos (by decide)]
  rw [Reader.vuLoop]
  rw [if_pos (by norm_num), if_pos (by decide)]
  rw [Reader.vuLoop]
  rw [if_pos (by norm_num), if_pos (by decide)]
  rw [Reader.vuLoop]
  rw [if_pos (by norm_num), if_pos (by decide)]
  rw [Reader.vuLoop]
  rw [if_pos (by norm_num), if_pos (by decide)]
  rw [Reader.vuLoop]
  rw [if_pos (by norm_num), if_pos (by decide)]
  rw [Reader.vuLoop]
  rw [if_pos (by norm_num), if_neg (by decide)]
  rfl

/-- C6: `Writer.data` rejects NaN and ±Infinity with the "Cannot store"
encode error (unrepresentable, never coerced), rejects `undefined` — the JS
missing-value sentinel, distinct from `null` — with the unsupported-type
error (not mapped to null), leaves the writer state completely unchanged in
each of these top-level cases, and (last conjunct) on EVERY input, accepted
or rejected at any nesting depth, only ever appends to the output: whatever
was written before a failure is left untouched. -/
theorem C6_encode_errors (cfg : Cfg) (w : WState) (b : Bool) (v : OABDATA) :
    Writer.data cfg w .nan = (w, some .unrepresentable) ∧
    Writer.data cfg w (.infinity b) = (w, some .unrepresentable) ∧
    Writer.data cfg w .undef = (w, some .unsupported) ∧
    (∃ tail, Writer.out (Writer.data cfg w v).1 = Writer.out w ++ tail) := by
  refine ⟨by rw [Writer.data], by rw [Writer.data], by rw [Writer.data], ?_⟩
  exact data_extends cfg w v


/-- C8: decoding a map whose entry uses key-tag 2 with a varint index at or
past the end of the reader's dictionary aborts the whole decode with the
key-reference error (`badKeyRef`, the source's "looked up a value out of
bounds" throw), producing no value. -/
theorem C8_bad_key_ref (cfg : Cfg) (idx : Nat) (rest : List Nat)
    (hge : cfg.lookup.length ≤ idx) (hlt : idx < 2 ^ 32) :
    Reader.decode cfg ([9, 1, 2] ++ vuBytes idx ++ rest) = .error .badKeyRef := by
  unfold Reader.decode
  rw [Reader.data.eq_def]
  have hu8 := u8_read [] 9 ([1, 2] ++ vuBytes idx ++ rest)
  simp only [List.nil_append, List.length_nil] at hu8
  rw [show ([9, 1, 2] : List Nat) ++ vuBytes idx ++ rest =
    9 :: ([1, 2] ++ vuBytes idx ++ rest) from by simp]
  have hvu1 := vu_read (m := 1) (by norm_num) [9] ([2] ++ vuBytes idx ++ rest)
  rw [show vuBytes 1 = [1] from rfl] at hvu1
  rw [show toInt32 1 = 1 from by unfold toInt32; norm_num] at hvu1
  simp only [List.append_assoc, List.singleton_append, List.cons_append,
    List.nil_append, List.length_cons, List.length_nil, Nat.zero_add] at hu8 hvu1 ⊢
  simp only [hu8, hvu1]
  rw [show Int.toNat 1 = 1 from rfl]
  rw [Reader.dataObj.eq_def]
  have hkey : (9 :: 1 :: 2 :: (vuBytes idx ++ rest))[2]? = some 2 := by simp
  simp only [hkey]
  have hvu2 := vu_read (m := idx) (by omega) [9, 1, 2] rest
  simp only [List.append_assoc, List.singleton_append, List.cons_append,
    List.nil_append, List.length_cons, List.length_nil, Nat.zero_add] at hvu2
  simp only [hvu2]
  have hlook : lookupAt cfg.lookup (toInt32 idx) = none := by
    unfold lookupAt toInt32
    split
    · rename_i hcond
      rw [if_neg (by omega)]
      apply List.getElem?_eq_none
      rw [Int.toNat_natCast]
      have : idx % 2 ^ 32 = idx := Nat.mod_eq_of_lt hlt
      omega
    · rw [if_pos (by omega)]
  simp only [hlook]
  rfl

/-- C8 witness: dictionary empty, index 0 — the smallest out-of-range
reference — aborts with `badKeyRef`. -/
theorem C8_bad_key_ref_witness :
    ((⟨[], false⟩ : Cfg).lookup.length ≤ 0 ∧ (0 : Nat) < 2 ^ 32) ∧
    Reader.decode ⟨[], false⟩ ([9, 1, 2] ++ vuBytes 0 ++ []) = .error .badKeyRef :=
  ⟨⟨by norm_num, by norm_num⟩, C8_bad_key_ref ⟨[], false⟩ 0 [] (by norm_num) (by norm_num)⟩


/-- C9: with matching fast-path settings on both sides: (1) fast path off, a
well-formed string (any mix of ASCII, 2-byte, 3-byte and 4-byte /
surrogate-pair sequences, the empty string included) round-trips exactly
through `Writer.string` then `Reader.string`; (2) fast path on, the writer
emits exactly one payload byte per UTF-16 code unit holding its low 8 bits;
(3) that payload decodes to the unit-wise low-8-bit image of the string; and
(4) the image equals the original — the round trip is exact — precisely when
every code unit is `≤ 0xFF`. -/
theorem C9_string_modes (cfg cfgA : Cfg) (w wA : WState) (s : JsStr)
    (hw : WF w) (hwA : WF wA) (hoff : cfg.noUtf8 = false) (hon : cfgA.noUtf8 = true)
    (hok : wfUnits s = true) (hlen : utf8Len s < 2 ^ 31) (hslen : s.length < 2 ^ 31) :
    (Reader.string cfg (Writer.out (Writer.string cfg w s)) (Writer.out w).length =
      .ok (s, (Writer.out (Writer.string cfg w s)).length)) ∧
    (Writer.out (Writer.string cfgA wA s) =
      Writer.out wA ++ vuBytes (toUint32 (s.length : Int)) ++
        s.map (fun c => c &&& 0xFF)) ∧
    (Reader.string cfgA (Writer.out (Writer.string cfgA wA s)) (Writer.out wA).length =
      .ok (s.map (fun c => c &&& 0xFF), (Writer.out (Writer.string cfgA wA s)).length)) ∧
    (s.map (fun c => c &&& 0xFF) = s ↔ ∀ c ∈ s, c ≤ 0xFF) := by
  have hu : unitsOK s := fun u hu => wfUnits_mem_lt s hok u hu
  have hsok : strOKb cfg.noUtf8 s = true := by
    unfold strOKb
    rw [hoff]
    simp only [Bool.false_eq_true, if_false, Bool.and_eq_true, decide_eq_true_eq]
    exact ⟨hok, by omega⟩
  have hsokA : strBytes cfgA s = vuBytes (toUint32 (s.length : Int)) ++
      s.map (fun c => c &&& 0xFF) := by
    unfold strBytes
    rw [hon]
    simp
  have he := string_emits (c := cfg) (w := w) hw hu
  have heA := string_emits (c := cfgA) (w := wA) hwA hu
  refine ⟨?_, ?_, ?_, map_and255_eq_self⟩
  · have hr := string_read (c := cfg) hsok (Writer.out w) []
    rw [List.append_nil] at hr
    rw [he.2.1, hr]
    simp
  · rw [heA.2.1, hsokA, List.append_assoc]
  · have hr := string_read_raw (c := cfgA) hon hslen (Writer.out wA) []
    rw [List.append_nil] at hr
    rw [heA.2.1, hr]
    simp

/-- C9 witness: the string with units `[0x41, 0x3B1, 0x4E2D, 0xD83D, 0xDE00]`
(ASCII "A", a 2-byte unit, a 3-byte unit, and a surrogate pair — one 4-byte
sequence) exercises every branch on fresh 4-byte writers. -/
theorem C9_string_modes_witness :
    (WF (Writer.mk0 4) ∧ (⟨[], false⟩ : Cfg).noUtf8 = false ∧
      (⟨[], true⟩ : Cfg).noUtf8 = true ∧
      wfUnits [0x41, 0x3B1, 0x4E2D, 0xD83D, 0xDE00] = true ∧
      utf8Len [0x41, 0x3B1, 0x4E2D, 0xD83D, 0xDE00] < 2 ^ 31 ∧
      ([0x41, 0x3B1, 0x4E2D, 0xD83D, 0xDE00] : List Nat).length < 2 ^ 31) ∧
    ((Reader.string ⟨[], false⟩
        (Writer.out (Writer.string ⟨[], false⟩ (Writer.mk0 4)
          [0x41, 0x3B1, 0x4E2D, 0xD83D, 0xDE00]))
        (Writer.out (Writer.mk0 4)).length =
      .ok ([0x41, 0x3B1, 0x4E2D, 0xD83D, 0xDE00],
        (Writer.out (Writer.string ⟨[], false⟩ (Writer.mk0 4)
          [0x41, 0x3B1, 0x4E2D, 0xD83D, 0xDE00])).length)) ∧
    (Writer.out (Writer.string ⟨[], true⟩ (Writer.mk0 4)
        [0x41, 0x3B1, 0x4E2D, 0xD83D, 0xDE00]) =
      Writer.out (Writer.mk0 4) ++
        vuBytes (toUint32 (([0x41, 0x3B1, 0x4E2D, 0xD83D, 0xDE00] : List Nat).length : Int)) ++
        ([0x41, 0x3B1, 0x4E2D, 0xD83D, 0xDE00] : List Nat).map (fun c => c &&& 0xFF)) ∧
    (Reader.string ⟨[], true⟩
        (Writer.out (Writer.string ⟨[], true⟩ (Writer.mk0 4)
          [0x41, 0x3B1, 0x4E2D, 0xD83D, 0xDE00]))
        (Writer.out (Writer.mk0 4)).length =
      .ok (([0x41, 0x3B1, 0x4E2D, 0xD83D, 0xDE00] : List Nat).map (fun c => c &&& 0xFF),
        (Writer.out (Writer.string ⟨[], true⟩ (Writer.mk0 4)
          [0x41, 0x3B1, 0x4E2D, 0xD83D, 0xDE00])).length)) ∧
    (([0x41, 0x3B1, 0x4E2D, 0xD83D, 0xDE00] : List Nat).map (fun c => c &&& 0xFF) =
        [0x41, 0x3B1, 0x4E2D, 0xD83D, 0xDE00] ↔
      ∀ c ∈ ([0x41, 0x3B1, 0x4E2D, 0xD83D, 0xDE00] : List Nat), c ≤ 0xFF)) :=
  ⟨⟨by decide, rfl, rfl, by decide, by norm_num [utf8Len], by norm_num⟩,
    C9_string_modes ⟨[], false⟩ ⟨[], true⟩ (Writer.mk0 4) (Writer.mk0 4)
      [0x41, 0x3B1, 0x4E2D, 0xD83D, 0xDE00] (by decide) (by decide) rfl rfl
      (by decide) (by norm_num [utf8Len]) (by norm_num)⟩

/-- C10: `Writer.vu` casts its argument to the unsigned 32-bit range
(`toUint32`) and emits exactly the varint bytes of the cast — between 1 and 5
of them — advancing the write position by that count; starting from any
writer satisfying the capacity invariant, the single 5-byte reservation
covers every stored byte, so the result satisfies the invariant and the
emitted bytes all land inside the buffer (they appear verbatim in the
output). -/
theorem C10_vu_capacity (w : WState) (num : Int) (hw : WF w) :
    WF (Writer.vu w num) ∧
    Writer.out (Writer.vu w num) = Writer.out w ++ vuBytes (toUint32 num) ∧
    (Writer.vu w num).pos = w.pos + (vuBytes (toUint32 num)).length ∧
    1 ≤ (vuBytes (toUint32 num)).length ∧ (vuBytes (toUint32 num)).length ≤ 5 := by
  obtain ⟨hwf2, hout, hpos⟩ := vu_emits (w := w) num hw
  have hlen := vuBytesF_length 4 (toUint32 num)
  exact ⟨hwf2, hout, hpos, hlen.1, hlen.2⟩

/-- C10 witness: `-1` casts to `2 ^ 32 - 1` and lands 5 bytes in a writer
whose initial capacity is a single byte. -/
theorem C10_vu_capacity_witness :
    WF (Writer.mk0 1) ∧
    (WF (Writer.vu (Writer.mk0 1) (-1)) ∧
      Writer.out (Writer.vu (Writer.mk0 1) (-1)) =
        Writer.out (Writer.mk0 1) ++ vuBytes (toUint32 (-1)) ∧
      (Writer.vu (Writer.mk0 1) (-1)).pos =
        (Writer.mk0 1).pos + (vuBytes (toUint32 (-1))).length ∧
      1 ≤ (vuBytes (toUint32 (-1))).length ∧ (vuBytes (toUint32 (-1))).length ≤ 5) :=
  ⟨by decide, C10_vu_capacity (Writer.mk0 1) (-1) (by decide)⟩

end OAB
